import Mathlib

set_option maxHeartbeats 1000000

/-!
Verification of the htmlwasher core: the policy parser (`parse-setup.ts`),
the sanitize adapter (`wash.ts`) and its post-processors, shallowly embedded
over `List Char` / `String`.  The external collaborators (the YAML parser,
the compiled JSON-schema validator and the `sanitize-html` engine) are
modelled as explicit function parameters, mirroring the interfaces the
source consumes.
-/

namespace HtmlWasher

/-! ## Data model: `SanitizeConfigSchema` (src/schema/sanitize-config.ts).
JS records are embedded as association lists (JS object iteration follows
insertion order). Absent optional fields are `none`. -/

structure SanitizeConfigSchema where
  allowedTags : Option (List String) := none
  allowedAttributes : Option (List (String × List String)) := none
  allowedClasses : Option (List (String × List String)) := none
  disallowedTagsMode : Option String := none
  selfClosing : Option (List String) := none
  allowProtocolRelative : Option Bool := none
deriving DecidableEq

/-! ## `parseSetup` (src/parse-setup.ts).
The YAML library and the compiled ajv validator are collaborators: the
embedding takes them as parameters.  A thrown JS value is modelled by
`ThrownValue` (`isError` = `instanceof Error`); `YamlDoc` carries the
`doc.errors` messages and `doc.toJS()`; a validator returns the boolean
verdict together with `validate.errors`. -/

inductive ErrorCode where
  | YAML_SYNTAX_ERROR
  | SCHEMA_VALIDATION_ERROR
deriving DecidableEq

inductive ParseSetupResult (α : Type) where
  | ok (config : α)
  | err (errorCode : ErrorCode) (errorMessage : String)
deriving DecidableEq

def ParseSetupResult.isOk {α : Type} : ParseSetupResult α → Bool
  | .ok _ => true
  | .err _ _ => false

structure ThrownValue where
  isError : Bool
  message : String

structure YamlDoc (α : Type) where
  errors : List String
  value : α

structure YamlApi (α : Type) where
  parseDocument : String → Except ThrownValue (YamlDoc α)

structure VError where
  instancePath : String
  message : Option String
deriving DecidableEq

/-- The `SCHEMA_VALIDATION_ERROR` message built by `parseSetup`:
`const path = error?.instancePath ?? ""; ...; path ? path + ": " + message : message`. -/
def schemaErrorMessage (errs : List VError) : String :=
  let path := match errs.head? with
    | some e => e.instancePath
    | none => ""
  let message := match errs.head? with
    | some e => e.message.getD "Unknown validation error"
    | none => "Unknown validation error"
  if path ≠ "" then path ++ ": " ++ message else message

def parseSetup {α : Type} (yaml : YamlApi α) (validate : α → Bool × List VError)
    (yamlString : String) : ParseSetupResult α :=
  match yaml.parseDocument yamlString with
  | .error e =>
      .err .YAML_SYNTAX_ERROR (if e.isError then e.message else "Unknown YAML error")
  | .ok doc =>
      if doc.errors.length > 0 then
        .err .YAML_SYNTAX_ERROR ((doc.errors.head?).getD "Unknown YAML syntax error")
      else
        let data := doc.value
        match validate data with
        | (true, _) => .ok data
        | (false, errs) => .err .SCHEMA_VALIDATION_ERROR (schemaErrorMessage errs)

/-! ## Presets (src/presets/index.ts): literal YAML texts. -/

structure Presets where
  minimal : String
  standard : String
  permissive : String

def presets : Presets :=
  { minimal := "# Minimal preset - basic text formatting only\nallowedTags:\n  - p\n  - a\n  - strong\n  - em\n  - br\n\nallowedAttributes:\n  a:\n    - href\n\ndisallowedTagsMode: discard\nallowProtocolRelative: false\n"
    standard := "# Standard preset - common HTML elements for content\nallowedTags:\n  - p\n  - a\n  - strong\n  - em\n  - b\n  - i\n  - u\n  - br\n  - ul\n  - ol\n  - li\n  - h1\n  - h2\n  - h3\n  - h4\n  - h5\n  - h6\n  - img\n  - table\n  - thead\n  - tbody\n  - tr\n  - th\n  - td\n\nallowedAttributes:\n  a:\n    - href\n    - title\n    - target\n  img:\n    - src\n    - alt\n    - width\n    - height\n  td:\n    - colspan\n    - rowspan\n  th:\n    - colspan\n    - rowspan\n\nselfClosing:\n  - img\n  - br\n  - hr\n\ndisallowedTagsMode: discard\nallowProtocolRelative: false\n"
    permissive := "# Permissive preset - extended with div, span, code, pre, blockquote\nallowedTags:\n  - p\n  - a\n  - strong\n  - em\n  - b\n  - i\n  - u\n  - br\n  - ul\n  - ol\n  - li\n  - h1\n  - h2\n  - h3\n  - h4\n  - h5\n  - h6\n  - img\n  - table\n  - thead\n  - tbody\n  - tr\n  - th\n  - td\n  - div\n  - span\n  - code\n  - pre\n  - blockquote\n  - hr\n  - sub\n  - sup\n\nallowedAttributes:\n  a:\n    - href\n    - title\n    - target\n  img:\n    - src\n    - alt\n    - width\n    - height\n  td:\n    - colspan\n    - rowspan\n  th:\n    - colspan\n    - rowspan\n  div:\n    - class\n  span:\n    - class\n  code:\n    - class\n  pre:\n    - class\n\nallowedClasses:\n  div:\n    - container\n    - wrapper\n    - content\n  span:\n    - highlight\n    - note\n  code:\n    - language-javascript\n    - language-typescript\n    - language-python\n    - language-html\n    - language-css\n\nselfClosing:\n  - img\n  - br\n  - hr\n\ndisallowedTagsMode: discard\nallowProtocolRelative: false\n" }

/-! ## `wash` (src/wash.ts): option construction with security overrides. -/

def ALWAYS_BLOCKED : List String :=
  ["script", "style", "iframe", "object", "embed", "applet", "frame", "frameset"]

/-- Options handed to the external sanitizer.  `exclusiveFilter` embeds the
`(frame) => ALWAYS_BLOCKED.includes(frame.tag)` predicate (applied to the
frame's tag name). -/
structure SanitizeOptions where
  exclusiveFilter : String → Bool
  allowedTags : Option (List String) := none
  allowedAttributes : Option (List (String × List String)) := none
  allowedClasses : Option (List (String × List String)) := none
  disallowedTagsMode : Option String := none
  selfClosing : Option (List String) := none
  allowProtocolRelative : Option Bool := none

/-- `attr.toLowerCase().startsWith("on")`, at the character level. -/
def startsWithOn (attr : String) : Bool :=
  ("on").data.isPrefixOf (attr.data.map Char.toLower)

/-- `filterEventHandlers` of src/wash.ts: per tag, drop every attribute name
whose lowercase form starts with `"on"`. -/
def filterEventHandlers (attrs : List (String × List String)) :
    List (String × List String) :=
  attrs.map fun p => (p.1, p.2.filter fun attr => !(startsWithOn attr))

/-- Step 2 of `wash`: build the engine options, copying only fields which are
present, mirroring the `if (config.x !== undefined)` chain of the source. -/
def buildSanitizeOptions (config : SanitizeConfigSchema) : SanitizeOptions :=
  let opts : SanitizeOptions :=
    { exclusiveFilter := fun tag => ALWAYS_BLOCKED.contains tag }
  let opts := match config.allowedTags with
    | some v => { opts with allowedTags := some v }
    | none => opts
  let opts := match config.allowedAttributes with
    | some v => { opts with allowedAttributes := some (filterEventHandlers v) }
    | none => opts
  let opts := match config.allowedClasses with
    | some v => { opts with allowedClasses := some v }
    | none => opts
  let opts := match config.disallowedTagsMode with
    | some v => { opts with disallowedTagsMode := some v }
    | none => opts
  let opts := match config.selfClosing with
    | some v => { opts with selfClosing := some v }
    | none => opts
  let opts := match config.allowProtocolRelative with
    | some v => { opts with allowProtocolRelative := some v }
    | none => opts
  opts

/-! ## Character-level helpers for the regex post-processors.
Each JS regex of src/wash.ts is embedded as an executable scanner with the
exact JS semantics (leftmost match, one-character advance on failure,
case-insensitive where the `i` flag is set). -/

/-- JS `\s` character class. -/
def jsWhitespace (c : Char) : Bool :=
  c = ' ' || c = '\t' || c = '\n' || c = '\r' || c = '\x0b' || c = '\x0c' ||
    c = '\u00A0' || c = '\u1680' || ('\u2000' ≤ c && c ≤ '\u200A') ||
    c = '\u2028' || c = '\u2029' || c = '\u202F' || c = '\u205F' ||
    c = '\u3000' || c = '\uFEFF'

/-- Case-insensitive `startsWith` on character lists. -/
def startsWithCI : List Char → List Char → Bool
  | [], _ => true
  | _ :: _, [] => false
  | p :: ps, c :: cs => (c.toLower = p.toLower) && startsWithCI ps cs

/-- Case-insensitive substring test. -/
def containsCI (pat : List Char) : List Char → Bool
  | [] => startsWithCI pat []
  | c :: rest => startsWithCI pat (c :: rest) || containsCI pat rest

/-- Split a character list at its first `>`: returns the chunk up to and
including that `>` together with the remainder (the extent of `[^>]*>`). -/
def splitAtGt : List Char → Option (List Char × List Char)
  | [] => none
  | c :: rest =>
      if c = '>' then some ([c], rest)
      else match splitAtGt rest with
        | some (upTo, after) => some (c :: upTo, after)
        | none => none

/-- One window of the lookahead body `\salt(?:=|\s|>)` (with the `i` flag). -/
def altWindow (c d e f g : Char) : Bool :=
  jsWhitespace c && (d.toLower = 'a') && (e.toLower = 'l') && (f.toLower = 't') &&
    (g = '=' || jsWhitespace g || g = '>')

/-- The lookahead `[^>]*\salt(?:=|\s|>)` of the image regex, evaluated from
the position right after `<img`: scan forward through non-`>` characters for
an `altWindow`. -/
def hasAltAhead : List Char → Bool
  | c :: d :: e :: f :: g :: rest =>
      altWindow c d e f g || (c ≠ '>' && hasAltAhead (d :: e :: f :: g :: rest))
  | _ => false

/-- Global scan of `/<img(?![^>]*\salt(?:=|\s|>))[^>]*>/gi`: all matches in
order.  Fuel-indexed so that it is structurally recursive (every step either
advances one character or jumps past a match). -/
def imgScanF : Nat → List Char → List (List Char)
  | 0, _ => []
  | _ + 1, [] => []
  | fuel + 1, c :: rest =>
      if startsWithCI ("<img").data (c :: rest) then
        let suffix := (c :: rest).drop 4
        if hasAltAhead suffix then imgScanF fuel rest
        else match splitAtGt suffix with
          | some (upTo, after) => ((c :: rest).take 4 ++ upTo) :: imgScanF fuel after
          | none => imgScanF fuel rest
      else imgScanF fuel rest

def imgScan (cs : List Char) : List (List Char) := imgScanF cs.length cs

/-- `originalImg.replace(/>$/, ' alt="">')` (the replacement text carries no
`$`, so its `GetSubstitution` pass is the identity). -/
def fixImg (m : List Char) : List Char :=
  match m.getLast? with
  | some c => if c = '>' then m.dropLast ++ (" alt=\"\">").data else m
  | none => m

/-- ECMA-262 `GetSubstitution` for a replacement string used with a string
search pattern (no capture groups): `$$` yields `$`, `$&` the matched text,
a `$` before a backquote the text preceding the match, a `$` before an
apostrophe the text following it; every other `$` (including all digit
forms, which with zero captures stay literal) is copied as is. -/
def getSubstGo (m p f : List Char) : Bool → List Char → List Char
  | false, [] => []
  | false, c :: rest =>
      if c = '$' then getSubstGo m p f true rest
      else c :: getSubstGo m p f false rest
  | true, [] => ['$']
  | true, d :: r =>
      if d = '$' then '$' :: getSubstGo m p f false r
      else if d = '&' then m ++ getSubstGo m p f false r
      else if d = Char.ofNat 96 then p ++ getSubstGo m p f false r
      else if d = Char.ofNat 39 then f ++ getSubstGo m p f false r
      else '$' :: d :: getSubstGo m p f false r

def getSubstitution (matched preceding following t : List Char) : List Char :=
  getSubstGo matched preceding following false t

/-- Split at the first literal occurrence of `target` (JS `indexOf`): the
text strictly before the occurrence and the text after it. -/
def splitFirst (target : List Char) : List Char → Option (List Char × List Char)
  | [] => none
  | c :: rest =>
      if target.isPrefixOf (c :: rest) then some ([], (c :: rest).drop target.length)
      else match splitFirst target rest with
        | some (pre, after) => some (c :: pre, after)
        | none => none

/-- `modified.replace(originalImg, fixedImg)`: JS `String.replace` with a
string pattern — the first literal occurrence is replaced by the replacement
processed through `GetSubstitution`; no occurrence leaves the text
unchanged. -/
def replaceFirst (target repl s : List Char) : List Char :=
  if target.isEmpty then getSubstitution [] [] s repl ++ s
  else match splitFirst target s with
    | some (pre, after) => pre ++ getSubstitution target pre after repl ++ after
    | none => s

/-- The literal splice: replace the first occurrence of `target` by `repl`
copied verbatim.  This is what `replaceFirst` computes whenever the
replacement contains no `$` (its `GetSubstitution` pass is then the
identity); the rewrite theorems are stated against it. -/
def replaceFirstAux (target repl : List Char) : List Char → List Char
  | [] => []
  | c :: rest =>
      if target.isPrefixOf (c :: rest) then repl ++ (c :: rest).drop target.length
      else c :: replaceFirstAux target repl rest

def imageAltWarning : String := "Image(s) found without alt attribute, empty alt added"

/-- `ensureImageAlt` of src/wash.ts.  The mutable `warnings` array is
threaded explicitly. -/
def ensureImageAlt (html : String) (warnings : List String) : String × List String :=
  let ms := imgScan html.data
  if ms.isEmpty then (html, warnings)
  else
    let warnings := warnings ++ [imageAltWarning]
    let modified := ms.foldl (fun acc m => replaceFirst m (fixImg m) acc) html.data
    (String.mk modified, warnings)

/-- `escapeHtml` of src/wash.ts: one global single-character replacement. -/
def escapeStep (c : Char) (r : List Char) : List Char → List Char
  | [] => []
  | x :: xs => if x = c then r ++ escapeStep c r xs else x :: escapeStep c r xs

/-- The five sequential global replaces of `escapeHtml`, in source order. -/
def escapeHtml (text : String) : String :=
  String.mk (escapeStep (Char.ofNat 39) ("&#39;").data
    (escapeStep '"' ("&quot;").data
      (escapeStep '>' ("&gt;").data
        (escapeStep '<' ("&lt;").data
          (escapeStep '&' ("&amp;").data text.data)))))

/-- Per-character view of the five sequential replaces: what one input
character contributes to the escaped output. -/
def escChar (c : Char) : List Char :=
  if c = '&' then ("&amp;").data
  else if c = '<' then ("&lt;").data
  else if c = '>' then ("&gt;").data
  else if c = '"' then ("&quot;").data
  else if c = Char.ofNat 39 then ("&#39;").data
  else [c]

/-- Existence of a match of `/<tag[^>]*>/i`: some position carries the
case-insensitive literal followed later by a `>`. -/
def hasOpenTag (tag : List Char) : List Char → Bool
  | [] => false
  | c :: rest =>
      (startsWithCI tag (c :: rest) && ((c :: rest).drop tag.length).contains '>')
        || hasOpenTag tag rest

/-- Decimal digit test for the `$n` forms of `GetSubstitution`. -/
def jsDigit (c : Char) : Bool := ('0' <= c) && (c <= '9')

/-- State of the `GetSubstitution` scan: plain scanning, just after a `$`,
or just after `$d` with `d` a decimal digit (awaiting a possible second
digit). -/
inductive SubstMode where
  | scan
  | dollar
  | digit (d : Char)

/-- ECMA-262 `GetSubstitution` with one capture group (the regex replace of
`ensureTitle`'s head branch, `/<head([^>]*)>/i`): on top of the zero-capture
forms, `$1` (also as `$01`, and with the two-digit fallback for `$1n`)
inserts the captured group; every other digit form stays literal. -/
def getSubst1Go (m p f cap1 : List Char) : SubstMode → List Char → List Char
  | .scan, [] => []
  | .scan, c :: rest =>
      if c = '$' then getSubst1Go m p f cap1 .dollar rest
      else c :: getSubst1Go m p f cap1 .scan rest
  | .dollar, [] => ['$']
  | .dollar, d :: r =>
      if d = '$' then '$' :: getSubst1Go m p f cap1 .scan r
      else if d = '&' then m ++ getSubst1Go m p f cap1 .scan r
      else if d = Char.ofNat 96 then p ++ getSubst1Go m p f cap1 .scan r
      else if d = Char.ofNat 39 then f ++ getSubst1Go m p f cap1 .scan r
      else if jsDigit d then getSubst1Go m p f cap1 (.digit d) r
      else '$' :: d :: getSubst1Go m p f cap1 .scan r
  | .digit d, [] => if d.toNat - 48 = 1 then cap1 else ['$', d]
  | .digit d, e :: r2 =>
      if jsDigit e then
        if (d.toNat - 48) * 10 + (e.toNat - 48) = 1 then
          cap1 ++ getSubst1Go m p f cap1 .scan r2
        else if d.toNat - 48 = 1 then
          cap1 ++ e :: getSubst1Go m p f cap1 .scan r2
        else '$' :: d :: e :: getSubst1Go m p f cap1 .scan r2
      else if d.toNat - 48 = 1 then
        if e = '$' then cap1 ++ getSubst1Go m p f cap1 .dollar r2
        else cap1 ++ e :: getSubst1Go m p f cap1 .scan r2
      else
        if e = '$' then '$' :: d :: getSubst1Go m p f cap1 .dollar r2
        else '$' :: d :: e :: getSubst1Go m p f cap1 .scan r2

def getSubstitution1 (matched preceding following cap1 t : List Char) : List Char :=
  getSubst1Go matched preceding following cap1 .scan t

/-- `html.replace(/<head([^>]*)>/i, "<head$1><title>" + esc + "</title>")`:
rewrite the first (leftmost) match with the template processed through
`GetSubstitution` (one capture group, the `[^>]*` interior); `acc` carries
the already-scanned prefix — the match's preceding text. -/
def replaceHeadAux (esc : List Char) (acc : List Char) : List Char → List Char
  | [] => []
  | c :: rest =>
      if startsWithCI ("<head").data (c :: rest) then
        match splitAtGt ((c :: rest).drop 5) with
        | some (upTo, after) =>
            getSubstitution1 ((c :: rest).take 5 ++ upTo) acc after upTo.dropLast
              ((("<head$1><title>").data) ++ esc ++ (("</title>").data)) ++ after
        | none => c :: replaceHeadAux esc (acc ++ [c]) rest
      else c :: replaceHeadAux esc (acc ++ [c]) rest

/-- `ensureTitle` of src/wash.ts (`!title` is true for an absent and for an
empty title). -/
def ensureTitle (html : String) (title : Option String) : String :=
  match title with
  | none => html
  | some t =>
      if t = "" then html
      else if hasOpenTag (("<title").data) html.data then html
      else if hasOpenTag (("<head").data) html.data then
        String.mk (replaceHeadAux (escapeHtml t).data [] html.data)
      else "<title>" ++ escapeHtml t ++ "</title>" ++ html

/-! ## `wash` itself, parameterized over `parseSetup`'s observable behavior
(`ps`) and the external sanitizer (`sanitizeHtml`). -/

structure WashOptions where
  setup : Option String := none
  title : Option String := none

structure WashResult where
  html : String
  warnings : List String
deriving DecidableEq

/-- `options?.setup ?? presets.standard`. -/
def washSetupText (options : Option WashOptions) : String :=
  match options.bind fun o => o.setup with
  | some s => s
  | none => presets.standard

/-- Step 1 of `wash`: resolve the configuration and the setup warnings.
On a parse failure, push `"Setup error: <msg>"`, re-parse the standard
preset, and fall back to `{}` if even that fails. -/
def washResolve (ps : String → ParseSetupResult SanitizeConfigSchema)
    (setupYaml : String) : SanitizeConfigSchema × List String :=
  match ps setupYaml with
  | .err _ msg =>
      let fallback := ps presets.standard
      (match fallback with
        | .ok c => c
        | .err _ _ => {}, ["Setup error: " ++ msg])
  | .ok config => (config, [])

/-- The engine options `wash` passes to the external sanitizer. -/
def washPassedOptions (ps : String → ParseSetupResult SanitizeConfigSchema)
    (options : Option WashOptions) : SanitizeOptions :=
  buildSanitizeOptions (washResolve ps (washSetupText options)).1

/-- Steps 3 and 4 of `wash`: sanitize, then post-process. -/
def washBody (sanitizeHtml : String → SanitizeOptions → String)
    (config : SanitizeConfigSchema) (html : String) (title : Option String)
    (warnings : List String) : WashResult :=
  let result := sanitizeHtml html (buildSanitizeOptions config)
  let result := ensureTitle result title
  let p := ensureImageAlt result warnings
  { html := p.1, warnings := p.2 }

def wash (ps : String → ParseSetupResult SanitizeConfigSchema)
    (sanitizeHtml : String → SanitizeOptions → String)
    (html : String) (options : Option WashOptions) : WashResult :=
  let resolved := washResolve ps (washSetupText options)
  washBody sanitizeHtml resolved.1 html (options.bind fun o => o.title) resolved.2

/-! ## Spec-modelled collaborators for the concrete `parseSetup` pipeline.
The data tree produced by `doc.toJS()`. -/

inductive Json where
  | null
  | bool (b : Bool)
  | str (s : String)
  | num (n : Int)
  | arr (xs : List Json)
  | obj (entries : List (String × Json))

/-- A text consisting only of YAML whitespace (space, tab, newline, carriage
return) — this includes the empty text. -/
def isBlank (s : String) : Bool :=
  s.data.all fun c => c = ' ' || c = '\t' || c = '\n' || c = '\r'

/-- Modelled from the spec: the structured-document parser collaborator (the
`yaml` package is external and out of scope).  Per §4.2 of the spec, an empty
or pure-whitespace input is a syntactically valid empty document whose data
tree is the null value; every other input is delegated to an abstract
oracle standing for the rest of the YAML grammar. -/
def specYamlApi (oracle : String → Except ThrownValue (YamlDoc Json)) : YamlApi Json :=
  { parseDocument := fun s =>
      if isBlank s then .ok { errors := [], value := .null } else oracle s }

def isStringArray : Json → Bool
  | .arr xs => xs.all fun j => match j with | .str _ => true | _ => false
  | _ => false

def isStringArrayMap : Json → Bool
  | .obj kvs => kvs.all fun kv => isStringArray kv.2
  | _ => false

def validTagsMode : Json → Bool
  | .str s => s = "discard" || s = "escape" || s = "recursiveEscape" || s = "completelyDiscard"
  | _ => false

def validField (key : String) (v : Json) : Bool :=
  if key = "allowedTags" then isStringArray v
  else if key = "allowedAttributes" then isStringArrayMap v
  else if key = "allowedClasses" then isStringArrayMap v
  else if key = "disallowedTagsMode" then validTagsMode v
  else if key = "selfClosing" then isStringArray v
  else if key = "allowProtocolRelative" then
    (match v with | .bool _ => true | _ => false)
  else false

/-- Modelled from the spec: the compiled schema validator (the generated
`schema.json` artifact is not among the sources).  Closed-world object check:
unknown top-level keys and ill-shaped fields are rejected with the first
violation's instance path; per the spec's §4.2 edge case, an empty document
(null data tree) validates as the empty Policy. -/
def specValidate : Json → Bool × List VError
  | .null => (true, [])
  | .obj kvs =>
      (match kvs.find? (fun kv => !(validField kv.1 kv.2)) with
        | some kv => (false, [{ instancePath := "/" ++ kv.1, message := some "invalid field" }])
        | none => (true, []))
  | _ => (false, [{ instancePath := "", message := some "must be object" }])

def decodeStrings : Json → List String
  | .arr xs => xs.filterMap fun j => match j with | .str s => some s | _ => none
  | _ => []

def decodeStrMap : Json → List (String × List String)
  | .obj kvs => kvs.map fun kv => (kv.1, decodeStrings kv.2)
  | _ => []

def jsonLookup (kvs : List (String × Json)) (k : String) : Option Json :=
  (kvs.find? fun kv => kv.1 = k).map fun kv => kv.2

/-- Reading a validated data tree as the typed configuration (the TS source
performs this step as a static cast; the null tree is the empty Policy). -/
def decodeConfig : Json → SanitizeConfigSchema
  | .obj kvs =>
      { allowedTags := (jsonLookup kvs "allowedTags").map decodeStrings
        allowedAttributes := (jsonLookup kvs "allowedAttributes").map decodeStrMap
        allowedClasses := (jsonLookup kvs "allowedClasses").map decodeStrMap
        disallowedTagsMode := (jsonLookup kvs "disallowedTagsMode").map fun j =>
          match j with | .str s => s | _ => ""
        selfClosing := (jsonLookup kvs "selfClosing").map decodeStrings
        allowProtocolRelative := (jsonLookup kvs "allowProtocolRelative").map fun j =>
          match j with | .bool b => b | _ => false }
  | _ => {}

/-- Whether the YAML stage of `parseSetup` fails for the given input. -/
def yamlParseFails {α : Type} (yaml : YamlApi α) (s : String) : Prop :=
  match yaml.parseDocument s with
  | .error _ => True
  | .ok doc => doc.errors ≠ []

/-! ## Concrete sample collaborators (used to instantiate the theorems). -/

def sampleYaml : YamlApi Nat :=
  { parseDocument := fun _ => .ok { errors := [], value := 0 } }

def sampleValidateFail : Nat → Bool × List VError :=
  fun _ => (false, [{ instancePath := "/x", message := some "bad" }])

def sampleOracle : String → Except ThrownValue (YamlDoc Json) :=
  fun _ => .error { isError := true, message := "not reached" }

/-- A parse function failing on one fixed text and succeeding elsewhere. -/
def samplePs (bad : String) : String → ParseSetupResult SanitizeConfigSchema :=
  fun s => if s = bad then .err .YAML_SYNTAX_ERROR "boom" else .ok {}

/-- A parse function failing on every input. -/
def samplePsAllFail : String → ParseSetupResult SanitizeConfigSchema :=
  fun _ => .err .YAML_SYNTAX_ERROR "boom"

/-- A sanitizer that returns its input unchanged (used as a concrete engine
in witnesses). -/
def sampleEngineId : String → SanitizeOptions → String := fun h _ => h

/-- A sanitizer with empty output (vacuously satisfies every exclusion
contract). -/
def sampleEngineEmpty : String → SanitizeOptions → String := fun _ _ => ""

/-- A parse function returning a fixed configuration whose attribute map
lists an event-handler attribute. -/
def samplePsAttrs : String → ParseSetupResult SanitizeConfigSchema :=
  fun _ => .ok { allowedAttributes := some [("div", ["onclick", "class"])] }

/-- An engine returning a fixed output (ignores its input and options). -/
def constEngine (out : String) : String → SanitizeOptions → String := fun _ _ => out

/-- An img tag whose text carries the `$&` substitution pattern. -/
def dollarAmpImg : String := "<img a=$&>"

/-- Engine output carrying a dollar-before-apostrophe substitution pattern
followed by text that completes to an `onclick` attribute after the fix:
`<img a=$'k=x b> onclic`. -/
def dollarTailProbe : String :=
  String.mk ((("<img a=$").data) ++ [Char.ofNat 39] ++ (("k=x b> onclic").data))

/-- Engine output carrying a dollar-before-apostrophe substitution pattern
followed by text that completes to `<script` after the fix:
`<img a=$'pt x> <scri`. -/
def dollarScriptProbe : String :=
  String.mk ((("<img a=$").data) ++ [Char.ofNat 39] ++ (("pt x> <scri").data))

/-- Number of matches of `/<tag[^>]*>/i` start positions (used to express
that a single `ensureTitle` call never yields two title tags). -/
def countOpenTag (tag : List Char) : List Char → Nat
  | [] => 0
  | c :: rest =>
      (if startsWithCI tag (c :: rest) && ((c :: rest).drop tag.length).contains '>'
        then 1 else 0) + countOpenTag tag rest

/-- The seven characters the image fix inserts in front of a closing `>`. -/
def insChars : List Char := (" alt=\"\"").data

/-- Render a flagged character list: a flagged character receives the
inserted `alt` text immediately in front of it. -/
def render : List (Char × Bool) → List Char
  | [] => []
  | (c, b) :: l => if b then insChars ++ c :: render l else c :: render l

/-- Twin of `imgScanF` which, instead of collecting the matches, flags the
closing `>` of every match. -/
def markF : Nat → List Char → List (Char × Bool)
  | 0, _ => []
  | _ + 1, [] => []
  | fuel + 1, c :: rest =>
      if startsWithCI ("<img").data (c :: rest) then
        if hasAltAhead ((c :: rest).drop 4) then (c, false) :: markF fuel rest
        else match splitAtGt ((c :: rest).drop 4) with
          | some (upTo, after) =>
              (((c :: rest).take 4 ++ upTo.dropLast).map fun x => (x, false))
                ++ ('>', true) :: markF fuel after
          | none => (c, false) :: markF fuel rest
      else (c, false) :: markF fuel rest

def mark (cs : List Char) : List (Char × Bool) := markF cs.length cs

/-- The match condition of the image regex at the start of a suffix. -/
def matchHead (t : List Char) : Bool :=
  startsWithCI ("<img").data t && !(hasAltAhead (t.drop 4)) && (t.drop 4).contains '>'

/-! # Theorems -/

/-- All fields of the engine options produced by `buildSanitizeOptions`,
expressed against the configuration. -/
theorem buildSanitizeOptions_fields (c : SanitizeConfigSchema) :
    (buildSanitizeOptions c).exclusiveFilter = (fun tag => ALWAYS_BLOCKED.contains tag) ∧
    (buildSanitizeOptions c).allowedTags = c.allowedTags ∧
    (buildSanitizeOptions c).allowedAttributes = c.allowedAttributes.map filterEventHandlers ∧
    (buildSanitizeOptions c).allowedClasses = c.allowedClasses ∧
    (buildSanitizeOptions c).disallowedTagsMode = c.disallowedTagsMode ∧
    (buildSanitizeOptions c).selfClosing = c.selfClosing ∧
    (buildSanitizeOptions c).allowProtocolRelative = c.allowProtocolRelative := by
  rcases c with ⟨t, a, cl, d, s, p⟩
  cases t <;> cases a <;> cases cl <;> cases d <;> cases s <;> cases p <;>
    simp [buildSanitizeOptions]

/-- Splitting the seeded warnings out of `washBody`. -/
theorem washBody_warnings_split (E : String → SanitizeOptions → String)
    (c : SanitizeConfigSchema) (h : String) (ti : Option String) (w : List String) :
    (washBody E c h ti w).html = (washBody E c h ti []).html ∧
    (washBody E c h ti w).warnings = w ++ (washBody E c h ti []).warnings := by
  unfold washBody ensureImageAlt
  by_cases hm : (imgScan (ensureTitle (E h (buildSanitizeOptions c)) ti).data).isEmpty <;>
    simp [hm]
/-- Unfolding `wash` into its resolution and body stages. -/
theorem wash_unfold (ps : String → ParseSetupResult SanitizeConfigSchema)
    (E : String → SanitizeOptions → String) (html : String)
    (options : Option WashOptions) :
    wash ps E html options =
      washBody E (washResolve ps (washSetupText options)).1 html
        (Option.bind options fun o => o.title)
        (washResolve ps (washSetupText options)).2 := rfl

/-- Claim C6: the engine options contain a key exactly when the policy field
is present (absence is never coerced into an explicit value), and the fields
`allowedClasses`, `disallowedTagsMode`, `selfClosing`, `allowProtocolRelative`
are copied verbatim. -/
theorem claim_C6_options_presence (config : SanitizeConfigSchema) :
    ((buildSanitizeOptions config).allowedTags = config.allowedTags) ∧
    ((buildSanitizeOptions config).allowedAttributes.isSome =
      config.allowedAttributes.isSome) ∧
    ((buildSanitizeOptions config).allowedClasses = config.allowedClasses) ∧
    ((buildSanitizeOptions config).disallowedTagsMode = config.disallowedTagsMode) ∧
    ((buildSanitizeOptions config).selfClosing = config.selfClosing) ∧
    ((buildSanitizeOptions config).allowProtocolRelative =
      config.allowProtocolRelative) := by
  obtain ⟨-, h2, h3, h4, h5, h6, h7⟩ := buildSanitizeOptions_fields config
  refine ⟨h2, ?_, h4, h5, h6, h7⟩
  rw [h3]
  cases config.allowedAttributes <;> simp

/-- Claim C2: when the resolved policy has an `allowedAttributes` map, the
options `wash` passes to the engine carry that map with, per tag, every
attribute name whose lowercase form starts with `"on"` removed and all other
names kept in order; hence no attribute name in the passed map starts
(case-insensitively) with `"on"`. -/
theorem claim_C2_event_handlers_stripped
    (ps : String → ParseSetupResult SanitizeConfigSchema)
    (options : Option WashOptions) (m : List (String × List String))
    (hm : (washResolve ps (washSetupText options)).1.allowedAttributes = some m) :
    (washPassedOptions ps options).allowedAttributes = some (filterEventHandlers m) ∧
    ((filterEventHandlers m).map Prod.fst = m.map Prod.fst) ∧
    (∀ tag l, (tag, l) ∈ m →
      (tag, l.filter fun a => !(startsWithOn a)) ∈ filterEventHandlers m) ∧
    (∀ p ∈ filterEventHandlers m, ∀ a ∈ p.2, startsWithOn a = false) := by
  refine ⟨?_, ?_, ?_, ?_⟩
  · have h := (buildSanitizeOptions_fields (washResolve ps (washSetupText options)).1).2.2.1
    rw [washPassedOptions, h, hm]
    rfl
  · simp [filterEventHandlers]
  · intro tag l hmem
    exact List.mem_map.2 ⟨(tag, l), hmem, rfl⟩
  · intro p hp a ha
    rcases List.mem_map.1 hp with ⟨q, hq, rfl⟩
    have := List.of_mem_filter ha
    simpa using this

theorem claim_C2_witness :
    (washResolve samplePsAttrs (washSetupText none)).1.allowedAttributes =
      some [("div", ["onclick", "class"])] ∧
    (washPassedOptions samplePsAttrs none).allowedAttributes =
      some [("div", ["class"])] := by
  refine ⟨rfl, ?_⟩
  have h := (claim_C2_event_handlers_stripped samplePsAttrs none
    [("div", ["onclick", "class"])] rfl).1
  rw [h]
  decide

/-- Claim C4: `parseSetup` always terminates with exactly one of the two
result shapes: `YAML_SYNTAX_ERROR` exactly when the YAML stage fails,
`SCHEMA_VALIDATION_ERROR` exactly when the document parses but fails
validation, and the schema failure message is `"<path>: <reason>"` when the
first error carries a non-empty instance path, else the bare reason. -/
theorem claim_C4_parse_setup_shapes {α : Type} (yaml : YamlApi α)
    (validate : α → Bool × List VError) (s : String) :
    ((∃ c, parseSetup yaml validate s = .ok c) ∨
      (∃ m, parseSetup yaml validate s = .err .YAML_SYNTAX_ERROR m) ∨
      (∃ m, parseSetup yaml validate s = .err .SCHEMA_VALIDATION_ERROR m)) ∧
    ((∃ m, parseSetup yaml validate s = .err .YAML_SYNTAX_ERROR m) ↔
      yamlParseFails yaml s) ∧
    ((∃ m, parseSetup yaml validate s = .err .SCHEMA_VALIDATION_ERROR m) ↔
      (∃ doc : YamlDoc α, yaml.parseDocument s = .ok doc ∧ doc.errors = [] ∧
        (validate doc.value).1 = false)) ∧
    (∀ doc : YamlDoc α, yaml.parseDocument s = .ok doc → doc.errors = [] →
      (validate doc.value).1 = false →
      ∀ e, (validate doc.value).2.head? = some e →
        parseSetup yaml validate s = .err .SCHEMA_VALIDATION_ERROR
          (if e.instancePath ≠ "" then
            e.instancePath ++ ": " ++ e.message.getD "Unknown validation error"
          else e.message.getD "Unknown validation error")) := by
  rcases hp : yaml.parseDocument s with e | doc
  · have hps : parseSetup yaml validate s = .err .YAML_SYNTAX_ERROR
        (if e.isError then e.message else "Unknown YAML error") := by
      simp [parseSetup, hp]
    refine ⟨Or.inr (Or.inl ⟨_, hps⟩), ?_, ?_, ?_⟩
    · simp [hps, yamlParseFails, hp]
    · simp [hps, hp]
    · intro doc hpd
      simp at hpd
  · rcases herr : doc.errors with _ | ⟨e0, es⟩
    · rcases hv : validate doc.value with ⟨b, errs⟩
      cases b
      · have hps : parseSetup yaml validate s =
            .err .SCHEMA_VALIDATION_ERROR (schemaErrorMessage errs) := by
          simp [parseSetup, hp, herr, hv]
        refine ⟨Or.inr (Or.inr ⟨_, hps⟩), ?_, ?_, ?_⟩
        · simp [hps, yamlParseFails, hp, herr]
        · simp [hps, hp, herr, hv]
        · intro doc2 hp2 herr2 hv2 e he
          injection hp2 with hd
          subst hd
          rw [hv] at he
          simp at he
          rw [hps]
          rcases herrs : errs with _ | ⟨e1, es1⟩
          · rw [herrs] at he
            simp at he
          · rw [herrs] at he
            simp at he
            subst he
            simp [schemaErrorMessage, herrs]
      · have hps : parseSetup yaml validate s = .ok doc.value := by
          simp [parseSetup, hp, herr, hv]
        refine ⟨Or.inl ⟨_, hps⟩, ?_, ?_, ?_⟩
        · simp [hps, yamlParseFails, hp, herr]
        · simp [hps, hp, herr, hv]
        · intro doc2 hp2 herr2 hv2 e he
          injection hp2 with hd
          subst hd
          rw [hv] at hv2
          simp at hv2
    · have hps : parseSetup yaml validate s = .err .YAML_SYNTAX_ERROR e0 := by
        simp [parseSetup, hp, herr]
      refine ⟨Or.inr (Or.inl ⟨_, hps⟩), ?_, ?_, ?_⟩
      · simp [hps, yamlParseFails, hp, herr]
      · simp [hps, hp, herr]
      · intro doc2 hp2 herr2 hv2 e he
        injection hp2 with hd
        subst hd
        rw [herr] at herr2
        simp at herr2

theorem claim_C4_witness :
    parseSetup sampleYaml sampleValidateFail "x" =
      .err .SCHEMA_VALIDATION_ERROR "/x: bad" := by
  have h := (claim_C4_parse_setup_shapes sampleYaml sampleValidateFail "x").2.2.2
    { errors := [], value := 0 } rfl rfl rfl
    { instancePath := "/x", message := some "bad" } rfl
  rw [h]
  decide

/-- Claim C5: on the empty text — and identically on any pure-whitespace
text — `parseSetup` (over the spec-modelled collaborators) succeeds with the
empty document, which reads as the empty Policy with all fields absent. -/
theorem claim_C5_blank_setup (oracle : String → Except ThrownValue (YamlDoc Json))
    (s : String) (hs : isBlank s = true) :
    parseSetup (specYamlApi oracle) specValidate s = .ok .null ∧
    decodeConfig .null =
      { allowedTags := none
        allowedAttributes := none
        allowedClasses := none
        disallowedTagsMode := none
        selfClosing := none
        allowProtocolRelative := none } := by
  constructor
  · simp [parseSetup, specYamlApi, hs, specValidate]
  · rfl

theorem claim_C5_witness :
    isBlank "" = true ∧ isBlank " \t\n " = true ∧
    parseSetup (specYamlApi sampleOracle) specValidate " \t\n " = .ok .null :=
  ⟨by decide, by decide, (claim_C5_blank_setup sampleOracle " \t\n " (by decide)).1⟩

/-- Claim C3: if the supplied setup text fails to parse while the standard
preset parses, `wash` produces the same html as the standard-preset call and
its warnings are the standard call's warnings with the single extra setup
warning `"Setup error: <message>"` in front; `wash` is total (never throws)
by construction. -/
theorem claim_C3_fallback (ps : String → ParseSetupResult SanitizeConfigSchema)
    (E : String → SanitizeOptions → String) (html t : String)
    (title : Option String) (code : ErrorCode) (msg : String)
    (hfail : ps t = .err code msg) (hstd : (ps presets.standard).isOk = true) :
    (wash ps E html (some { setup := some t, title := title })).html =
      (wash ps E html (some { setup := some presets.standard, title := title })).html ∧
    (wash ps E html (some { setup := some t, title := title })).warnings =
      ("Setup error: " ++ msg) ::
        (wash ps E html (some { setup := some presets.standard, title := title })).warnings := by
  rcases hs : ps presets.standard with c | ⟨c2, m2⟩
  · have hres1 : washResolve ps
        (washSetupText (some { setup := some t, title := title })) =
        (c, ["Setup error: " ++ msg]) := by
      simp [washResolve, washSetupText, hfail, hs]
    have hres2 : washResolve ps
        (washSetupText (some { setup := some presets.standard, title := title })) =
        (c, []) := by
      simp [washResolve, washSetupText, hs]
    have hb := washBody_warnings_split E c html title ["Setup error: " ++ msg]
    rw [wash_unfold, wash_unfold, hres1, hres2]
    simp only [Option.bind]
    exact ⟨hb.1, by simpa using hb.2⟩
  · rw [hs] at hstd
    simp [ParseSetupResult.isOk] at hstd

theorem claim_C3_witness :
    (wash (samplePs "bad") sampleEngineId "<p>x</p>"
        (some { setup := some "bad", title := none })).html =
      (wash (samplePs "bad") sampleEngineId "<p>x</p>"
        (some { setup := some presets.standard, title := none })).html ∧
    (wash (samplePs "bad") sampleEngineId "<p>x</p>"
        (some { setup := some "bad", title := none })).warnings =
      ("Setup error: " ++ "boom") ::
        (wash (samplePs "bad") sampleEngineId "<p>x</p>"
          (some { setup := some presets.standard, title := none })).warnings :=
  claim_C3_fallback (samplePs "bad") sampleEngineId "<p>x</p>" "bad" none
    .YAML_SYNTAX_ERROR "boom" (by decide) (by decide)

/-- Claim C10: when the supplied setup fails and the fallback re-parse of the
standard preset also fails, `wash` silently substitutes the empty
configuration `{}` and still returns a normal result; the only setup warning
is the one about the original failure (the only other warning that can
follow it is the image post-processor's). -/
theorem claim_C10_double_failure (ps : String → ParseSetupResult SanitizeConfigSchema)
    (E : String → SanitizeOptions → String) (html t : String)
    (title : Option String) (code code2 : ErrorCode) (msg msg2 : String)
    (hfail : ps t = .err code msg) (hstd : ps presets.standard = .err code2 msg2) :
    wash ps E html (some { setup := some t, title := title }) =
      { html := (washBody E {} html title []).html
        warnings := ("Setup error: " ++ msg) ::
          (washBody E {} html title []).warnings } ∧
    ((washBody E {} html title []).warnings = [] ∨
      (washBody E {} html title []).warnings = [imageAltWarning]) := by
  have hres : washResolve ps
      (washSetupText (some { setup := some t, title := title })) =
      ({}, ["Setup error: " ++ msg]) := by
    simp [washResolve, washSetupText, hfail, hstd]
  constructor
  · have hb := washBody_warnings_split E {} html title ["Setup error: " ++ msg]
    rw [wash_unfold, hres]
    simp only [Option.bind]
    calc washBody E {} html title ["Setup error: " ++ msg] =
        ⟨(washBody E {} html title ["Setup error: " ++ msg]).html,
          (washBody E {} html title ["Setup error: " ++ msg]).warnings⟩ := rfl
      _ = _ := by rw [hb.1, hb.2]; rfl
  · unfold washBody ensureImageAlt
    by_cases hm :
        (imgScan (ensureTitle (E html (buildSanitizeOptions {})) title).data).isEmpty <;>
      simp [hm]

theorem claim_C10_witness :
    wash samplePsAllFail sampleEngineId "<p>x</p>"
        (some { setup := some "bad", title := none }) =
      { html := (washBody sampleEngineId {} "<p>x</p>" none []).html
        warnings := ("Setup error: " ++ "boom") ::
          (washBody sampleEngineId {} "<p>x</p>" none []).warnings } :=
  (claim_C10_double_failure samplePsAllFail sampleEngineId "<p>x</p>" "bad" none
    .YAML_SYNTAX_ERROR .YAML_SYNTAX_ERROR "boom" "boom" rfl rfl).1

/-! ## Character-level basics -/

theorem char_ofNat_toNat (n : Nat) (h : Char.isValidCharNat n) :
    (Char.ofNat n).toNat = n := by
  rw [Char.ofNat, dif_pos h]
  simp [Char.toNat, Char.ofNatAux, UInt32.toNat, UInt32.ofNat', BitVec.toNat_ofNatLt]

theorem toLower_of_not_upper (c : Char) (h : ¬(65 ≤ c.toNat ∧ c.toNat ≤ 90)) :
    c.toLower = c := by
  unfold Char.toLower
  rw [if_neg h]

theorem toLower_toNat (c : Char) :
    c.toLower.toNat = if 65 ≤ c.toNat ∧ c.toNat ≤ 90 then c.toNat + 32 else c.toNat := by
  by_cases h : 65 ≤ c.toNat ∧ c.toNat ≤ 90
  · rw [if_pos h]
    unfold Char.toLower
    rw [if_pos h]
    exact char_ofNat_toNat _ (Or.inl (by omega))
  · rw [if_neg h, toLower_of_not_upper c h]

theorem toLower_eq_concrete {c d : Char}
    (hd : ¬(97 ≤ d.toNat ∧ d.toNat ≤ 122)) (hd2 : ¬(65 ≤ d.toNat ∧ d.toNat ≤ 90)) :
    (c.toLower = d) ↔ c = d := by
  constructor
  · intro h
    by_cases hc : 65 ≤ c.toNat ∧ c.toNat ≤ 90
    · exfalso
      have ht := toLower_toNat c
      rw [if_pos hc, h] at ht
      omega
    · rwa [toLower_of_not_upper c hc] at h
  · intro h
    subst h
    exact toLower_of_not_upper c hd2

theorem toLower_eq_lt_iff (c : Char) : (c.toLower = '<') ↔ c = '<' :=
  toLower_eq_concrete (by decide) (by decide)

theorem toLower_eq_gt_iff (c : Char) : (c.toLower = '>') ↔ c = '>' :=
  toLower_eq_concrete (by decide) (by decide)

theorem toLower_of_lower (c : Char) (h1 : 97 ≤ c.toNat) (h2 : c.toNat ≤ 122) :
    c.toLower = c :=
  toLower_of_not_upper c (by omega)

/-! ## Scanner basics -/

theorem startsWithCI_nil (t : List Char) : startsWithCI [] t = true := by
  cases t <;> rfl

theorem startsWithCI_length {p t : List Char} (h : startsWithCI p t = true) :
    p.length ≤ t.length := by
  induction p generalizing t with
  | nil => simp
  | cons a ps ih =>
    cases t with
    | nil => simp [startsWithCI] at h
    | cons c cs =>
      simp only [startsWithCI, Bool.and_eq_true] at h
      simpa using Nat.succ_le_succ (ih h.2)

theorem startsWithCI_append_left {p t : List Char} (u : List Char)
    (h : p.length ≤ t.length) :
    startsWithCI p (t ++ u) = startsWithCI p t := by
  induction p generalizing t with
  | nil => simp [startsWithCI_nil]
  | cons a ps ih =>
    cases t with
    | nil => simp at h
    | cons c cs =>
      have h2 : ps.length ≤ cs.length := by simpa using h
      show ((decide (c.toLower = a.toLower)) && startsWithCI ps (cs ++ u)) =
        ((decide (c.toLower = a.toLower)) && startsWithCI ps cs)
      rw [ih h2]

theorem startsWithCI_congr {t t2 : List Char}
    (hci : t.map Char.toLower = t2.map Char.toLower) (p : List Char) :
    startsWithCI p t = startsWithCI p t2 := by
  induction p generalizing t t2 with
  | nil => simp [startsWithCI_nil]
  | cons a ps ih =>
    cases t with
    | nil =>
      cases t2 with
      | nil => rfl
      | cons d ds => simp at hci
    | cons c cs =>
      cases t2 with
      | nil => simp at hci
      | cons d ds =>
        simp only [List.map_cons, List.cons.injEq] at hci
        simp only [startsWithCI, hci.1, ih hci.2]

theorem startsWithCI_map_toLower {p t : List Char} (h : startsWithCI p t = true) :
    (t.take p.length).map Char.toLower = p.map Char.toLower := by
  induction p generalizing t with
  | nil => simp
  | cons a ps ih =>
    cases t with
    | nil => simp [startsWithCI] at h
    | cons c cs =>
      simp only [startsWithCI, Bool.and_eq_true, decide_eq_true_eq] at h
      simp [List.take, ih h.2, h.1]

theorem containsCI_iff {pat s : List Char} :
    containsCI pat s = true ↔ ∃ t, t <:+ s ∧ startsWithCI pat t = true := by
  induction s with
  | nil =>
    simp only [containsCI]
    constructor
    · intro h
      exact ⟨[], List.nil_suffix, h⟩
    · rintro ⟨t, ht, hs⟩
      rw [List.suffix_nil.1 ht] at hs
      exact hs
  | cons c cs ih =>
    simp only [containsCI, Bool.or_eq_true, ih]
    constructor
    · rintro (h | ⟨t, ht, hs⟩)
      · exact ⟨c :: cs, List.suffix_refl _, h⟩
      · exact ⟨t, ht.trans (List.suffix_cons c cs), hs⟩
    · rintro ⟨t, ht, hs⟩
      rcases List.suffix_cons_iff.1 ht with rfl | ht2
      · exact Or.inl hs
      · exact Or.inr ⟨t, ht2, hs⟩

theorem containsCI_eq_false_iff {pat s : List Char} :
    containsCI pat s = false ↔ ∀ t, t <:+ s → startsWithCI pat t = false := by
  rw [← Bool.not_eq_true, containsCI_iff]
  push_neg
  constructor
  · intro h t ht
    rcases hb : startsWithCI pat t with _ | _
    · rfl
    · exact absurd hb (h t ht)
  · intro h t ht
    simp [h t ht]

theorem hasOpenTag_iff {tag s : List Char} :
    hasOpenTag tag s = true ↔ ∃ t, t <:+ s ∧ startsWithCI tag t = true ∧
      (t.drop tag.length).contains '>' = true := by
  induction s with
  | nil =>
    simp only [hasOpenTag]
    constructor
    · intro h
      simp at h
    · rintro ⟨t, ht, hs, hc⟩
      rw [List.suffix_nil] at ht
      subst ht
      simp at hc
  | cons c cs ih =>
    simp only [hasOpenTag, Bool.or_eq_true, Bool.and_eq_true, ih]
    constructor
    · rintro (⟨hs, hc⟩ | ⟨t, ht, hs, hc⟩)
      · exact ⟨c :: cs, List.suffix_refl _, hs, hc⟩
      · exact ⟨t, ht.trans (List.suffix_cons c cs), hs, hc⟩
    · rintro ⟨t, ht, hs, hc⟩
      rcases List.suffix_cons_iff.1 ht with rfl | ht2
      · exact Or.inl ⟨hs, hc⟩
      · exact Or.inr ⟨t, ht2, hs, hc⟩

/-! ## splitAtGt and positional falsity lemmas -/

theorem splitAtGt_some {cs u a : List Char} (h : splitAtGt cs = some (u, a)) :
    ∃ u0, u = u0 ++ ['>'] ∧ cs = u0 ++ '>' :: a ∧ ∀ x ∈ u0, x ≠ '>' := by
  induction cs generalizing u a with
  | nil => simp [splitAtGt] at h
  | cons c rest ih =>
    rw [splitAtGt] at h
    by_cases hc : c = '>'
    · rw [if_pos hc] at h
      simp only [Option.some.injEq, Prod.mk.injEq] at h
      refine ⟨[], ?_, ?_, by simp⟩
      · simp [← h.1, hc]
      · simp [hc, h.2]
    · rw [if_neg hc] at h
      rcases hs : splitAtGt rest with _ | ⟨u2, a2⟩
      · rw [hs] at h
        simp at h
      · rw [hs] at h
        simp only [Option.some.injEq, Prod.mk.injEq] at h
        obtain ⟨h1, h2⟩ := h
        obtain ⟨u0, hu0, hrest, hmem⟩ := ih (u := u2) (a := a2) hs
        subst h2
        refine ⟨c :: u0, ?_, ?_, ?_⟩
        · rw [← h1, hu0]
          rfl
        · rw [hrest]
          rfl
        · intro x hx
          rcases List.mem_cons.1 hx with rfl | hx2
          · exact hc
          · exact hmem x hx2

theorem splitAtGt_none_iff {cs : List Char} : splitAtGt cs = none ↔ '>' ∉ cs := by
  induction cs with
  | nil => simp [splitAtGt]
  | cons c rest ih =>
    rw [splitAtGt]
    by_cases hc : c = '>'
    · subst hc
      simp
    · rw [if_neg hc]
      rcases hs : splitAtGt rest with _ | p
      · have h1 : '>' ∉ rest := ih.1 hs
        simp [hc, h1, Ne.symm hc]
      · have hmem : '>' ∈ rest := by
          by_contra h2
          rw [ih.2 h2] at hs
          exact absurd hs (by simp)
        simp [hmem]

theorem startsWithCI_cons_false {a : Char} (ps : List Char) {c : Char} (cs : List Char)
    (h : ¬ c.toLower = a.toLower) : startsWithCI (a :: ps) (c :: cs) = false := by
  simp [startsWithCI, h]

theorem startsWithCI_stop_at {p : List Char} (g : Char)
    (hg : ∀ x ∈ p, ¬ x.toLower = g.toLower) :
    ∀ (a z : List Char), a.length < p.length → startsWithCI p (a ++ g :: z) = false := by
  induction p with
  | nil =>
    intro a z h
    simp at h
  | cons q ps ih =>
    intro a z hlen
    cases a with
    | nil =>
      exact startsWithCI_cons_false ps z (fun hq => hg q (by simp) hq.symm)
    | cons b as =>
      show (decide (b.toLower = q.toLower) && startsWithCI ps (as ++ g :: z)) = false
      rcases hb : decide (b.toLower = q.toLower) with _ | _
      · simp
      · rw [ih (fun x hx => hg x (by simp [hx])) as z (by simpa using hlen)]
        simp

theorem countOpenTag_cons (tag : List Char) (c : Char) (rest : List Char) :
    countOpenTag tag (c :: rest) =
      (if startsWithCI tag (c :: rest) && ((c :: rest).drop tag.length).contains '>'
        then 1 else 0) + countOpenTag tag rest := rfl

theorem countOpenTag_append_zero (tag : List Char) :
    ∀ (xs R : List Char),
      (∀ a, a <:+ xs → a ≠ [] →
        (startsWithCI tag (a ++ R) && ((a ++ R).drop tag.length).contains '>') = false) →
      countOpenTag tag (xs ++ R) = countOpenTag tag R := by
  intro xs
  induction xs with
  | nil =>
    intro R _
    rfl
  | cons x xs ih =>
    intro R hx
    have h0 : (startsWithCI tag (x :: (xs ++ R)) &&
        ((x :: (xs ++ R)).drop tag.length).contains '>') = false := by
      have := hx (x :: xs) (List.suffix_refl _) (by simp)
      simpa using this
    rw [List.cons_append, countOpenTag_cons, h0]
    simpa using ih R (fun a ha hne => hx a (ha.trans (List.suffix_cons x xs)) hne)

theorem countOpenTag_zero_of_not_open (tag : List Char) :
    ∀ (s : List Char), hasOpenTag tag s = false → countOpenTag tag s = 0 := by
  intro s
  induction s with
  | nil =>
    intro _
    rfl
  | cons c rest ih =>
    intro h
    rw [hasOpenTag] at h
    rw [Bool.or_eq_false_iff] at h
    rw [countOpenTag_cons, h.1]
    simpa using ih h.2

theorem suffix_append_both {l₁ l₂ t : List Char} (h : l₁ <:+ l₂) :
    l₁ ++ t <:+ l₂ ++ t := by
  obtain ⟨u, rfl⟩ := h
  exact ⟨u, by rw [List.append_assoc]⟩

theorem suffix_ci_corr {A B : List Char}
    (hci : A.map Char.toLower = B.map Char.toLower)
    {a : List Char} (ha : a <:+ A) :
    ∃ b, b <:+ B ∧ a.map Char.toLower = b.map Char.toLower ∧ b.length = a.length := by
  obtain ⟨u, hu⟩ := ha
  refine ⟨B.drop u.length, List.drop_suffix _ _, ?_, ?_⟩
  · have h2 : A.drop u.length = a := by
      rw [← hu]
      simp
    rw [← h2, List.map_drop, List.map_drop, hci]
  · have hlen : A.length = B.length := by
      have := congrArg List.length hci
      simpa using this
    have h3 : u.length + a.length = A.length := by
      rw [← hu]
      simp
    rw [List.length_drop]
    omega

theorem zone_starts_false (pat : List Char)
    (hg : ∀ x ∈ pat, ¬ x.toLower = ('>').toLower)
    (A B Z W : List Char) (hci : A.map Char.toLower = B.map Char.toLower)
    (horig : ∀ b, b <:+ B → pat.length ≤ b.length →
      startsWithCI pat (b ++ W) = false) :
    ∀ a, a <:+ A → startsWithCI pat (a ++ '>' :: Z) = false := by
  intro a ha
  by_cases hlen : pat.length ≤ a.length
  · rw [startsWithCI_append_left _ hlen]
    obtain ⟨b, hb, hcib, hblen⟩ := suffix_ci_corr hci ha
    rw [startsWithCI_congr hcib pat]
    have h1 := horig b hb (by omega)
    rw [startsWithCI_append_left _ (by omega)] at h1
    exact h1
  · exact startsWithCI_stop_at '>' hg a Z (by omega)

/-! ## escapeHtml: the five sequential replaces act as one per-character pass -/

theorem escapeStep_append (c : Char) (r : List Char) :
    ∀ xs ys, escapeStep c r (xs ++ ys) = escapeStep c r xs ++ escapeStep c r ys := by
  intro xs ys
  induction xs with
  | nil => rfl
  | cons x xs ih =>
    by_cases hx : x = c <;> simp [escapeStep, hx, ih]

theorem escapeStep_of_not_mem (c : Char) (r : List Char) :
    ∀ xs, c ∉ xs → escapeStep c r xs = xs := by
  intro xs
  induction xs with
  | nil =>
    intro _
    rfl
  | cons x xs ih =>
    intro h
    have hx : x ≠ c := fun he => h (by simp [he])
    simp [escapeStep, hx, ih (fun hm => h (by simp [hm]))]

theorem escapeStep_singleton (c : Char) (r : List Char) (x : Char) :
    escapeStep c r [x] = if x = c then r ++ [] else [x] := by
  by_cases hx : x = c <;> simp [escapeStep, hx]

theorem escapeHtml_data (s : String) :
    (escapeHtml s).data = (s.data.map escChar).join := by
  show (escapeStep (Char.ofNat 39) ("&#39;").data
      (escapeStep '"' ("&quot;").data
        (escapeStep '>' ("&gt;").data
          (escapeStep '<' ("&lt;").data
            (escapeStep '&' ("&amp;").data s.data))))) = (s.data.map escChar).join
  induction s.data with
  | nil => rfl
  | cons x xs ih =>
    have h5 : escapeStep '&' ("&amp;").data (x :: xs) =
        (if x = '&' then ("&amp;").data else [x]) ++ escapeStep '&' ("&amp;").data xs := by
      by_cases hx : x = '&' <;> simp [escapeStep, hx]
    rw [h5, escapeStep_append, escapeStep_append, escapeStep_append, escapeStep_append, ih]
    have hhead : escapeStep (Char.ofNat 39) ("&#39;").data
        (escapeStep '"' ("&quot;").data
          (escapeStep '>' ("&gt;").data
            (escapeStep '<' ("&lt;").data
              (if x = '&' then ("&amp;").data else [x])))) = escChar x := by
      by_cases h1 : x = '&'
      · subst h1
        decide
      · rw [if_neg h1]
        by_cases h2 : x = '<'
        · subst h2
          decide
        · rw [escapeStep_of_not_mem '<' _ [x] (by simp [Ne.symm h2])]
          by_cases h3 : x = '>'
          · subst h3
            decide
          · rw [escapeStep_of_not_mem '>' _ [x] (by simp [Ne.symm h3])]
            by_cases h4 : x = '"'
            · subst h4
              decide
            · rw [escapeStep_of_not_mem '"' _ [x] (by simp [Ne.symm h4])]
              by_cases h5 : x = Char.ofNat 39
              · subst h5
                decide
              · rw [escapeStep_of_not_mem (Char.ofNat 39) _ [x] (by simp [Ne.symm h5])]
                simp [escChar, h1, h2, h3, h4, h5]
    rw [hhead]
    rfl

theorem escChar_no_lt (c : Char) : ∀ x ∈ escChar c, x ≠ '<' := by
  intro x hx
  unfold escChar at hx
  split_ifs at hx with h1 h2 h3 h4 h5
  · intro he
    subst he
    exact absurd hx (by decide)
  · intro he
    subst he
    exact absurd hx (by decide)
  · intro he
    subst he
    exact absurd hx (by decide)
  · intro he
    subst he
    exact absurd hx (by decide)
  · intro he
    subst he
    exact absurd hx (by decide)
  · rcases List.mem_singleton.1 hx with rfl
    exact h2

theorem escapeHtml_no_lt (s : String) : ∀ x ∈ (escapeHtml s).data, x ≠ '<' := by
  rw [escapeHtml_data]
  intro x hx
  rw [List.mem_join] at hx
  obtain ⟨ch, hch, hxch⟩ := hx
  rw [List.mem_map] at hch
  obtain ⟨c, _, rfl⟩ := hch
  exact escChar_no_lt c x hxch

theorem escChar_no_dollar (c : Char) (hc : ¬ c = '$') : '$' ∉ escChar c := by
  unfold escChar
  by_cases h1 : c = '&'
  · rw [if_pos h1]
    decide
  · rw [if_neg h1]
    by_cases h2 : c = '<'
    · rw [if_pos h2]
      decide
    · rw [if_neg h2]
      by_cases h3 : c = '>'
      · rw [if_pos h3]
        decide
      · rw [if_neg h3]
        by_cases h4 : c = '"'
        · rw [if_pos h4]
          decide
        · rw [if_neg h4]
          by_cases h5 : c = Char.ofNat 39
          · rw [if_pos h5]
            decide
          · rw [if_neg h5]
            intro hx
            rcases List.mem_singleton.1 hx with rfl
            exact hc rfl

theorem escapeHtml_no_dollar (s : String) (hs : '$' ∉ s.data) :
    '$' ∉ (escapeHtml s).data := by
  rw [escapeHtml_data]
  intro hx
  rw [List.mem_join] at hx
  obtain ⟨ch, hch, hxch⟩ := hx
  rw [List.mem_map] at hch
  obtain ⟨c, hc, rfl⟩ := hch
  exact escChar_no_dollar c (fun he => hs (he ▸ hc)) hxch

theorem contains_false_iff (l : List Char) (a : Char) : l.contains a = false ↔ a ∉ l := by
  rw [← Bool.not_eq_true]
  simp

theorem getSubstGo_no_dollar (m p f : List Char) :
    ∀ r, '$' ∉ r → getSubstGo m p f false r = r := by
  intro r
  induction r with
  | nil =>
    intro _
    rfl
  | cons c rest ih =>
    intro h
    have hc : ¬ c = '$' := fun he => h (by simp [he])
    simp only [getSubstGo]
    rw [if_neg hc, ih (fun hm2 => h (by simp [hm2]))]

theorem getSubstitution_no_dollar (m p f : List Char) :
    ∀ r, '$' ∉ r → getSubstitution m p f r = r :=
  fun r h => getSubstGo_no_dollar m p f r h

theorem getSubst1Go_scan_no_dollar (m p f cap1 : List Char) :
    ∀ t, '$' ∉ t → getSubst1Go m p f cap1 .scan t = t := by
  intro t
  induction t with
  | nil =>
    intro _
    rfl
  | cons c rest ih =>
    intro h
    have hc : ¬ c = '$' := fun he => h (by simp [he])
    simp only [getSubst1Go]
    rw [if_neg hc, ih (fun hm2 => h (by simp [hm2]))]

theorem getSubstitution1_no_dollar (m p f cap1 t : List Char) (h : '$' ∉ t) :
    getSubstitution1 m p f cap1 t = t := getSubst1Go_scan_no_dollar m p f cap1 t h

/-- Processing the fixed part of the head template: the literal `<head`, the
substituted `$1` group, and `><title>` come out in order, and the scan
continues on the rest of the template. -/
theorem getSubstitution1_head_template (m p f cap1 X : List Char) :
    getSubstitution1 m p f cap1 ((("<head$1><title>").data) ++ X)
      = ("<head").data ++ (cap1 ++ ('>' :: (("<title>").data
          ++ getSubstitution1 m p f cap1 X))) := rfl

/-- Decomposition of the first-match replacement performed by
`replaceHeadAux`: the html splits as `pre ++ h5 ++ grp ++ '>' :: post` at the
first `/<head([^>]*)>/i` match, and the output re-emits the preceding text,
the literal `<head`, the group and `>`, then `<title>` followed by the
`GetSubstitution`-processed remainder of the template (the escaped title and
`</title>`) and the following text. -/
theorem replaceHeadAux_decomp (esc : List Char) :
    ∀ (cs : List Char) (acc : List Char), hasOpenTag (("<head").data) cs = true →
    ∃ pre h5 grp post,
      cs = pre ++ h5 ++ grp ++ '>' :: post ∧
      h5.map Char.toLower = ("<head").data ∧
      (∀ x ∈ grp, x ≠ '>') ∧
      (∀ t, t <:+ cs → grp.length + post.length + 6 < t.length →
        ¬(startsWithCI (("<head").data) t = true ∧ (t.drop 5).contains '>' = true)) ∧
      replaceHeadAux esc acc cs =
        pre ++ ("<head").data ++ grp ++ '>' :: ("<title>").data
          ++ getSubstitution1 (h5 ++ grp ++ ['>']) (acc ++ pre) post grp
              (esc ++ (("</title>").data)) ++ post := by
  intro cs
  induction cs with
  | nil =>
    intro acc h
    simp [hasOpenTag] at h
  | cons c rest ih =>
    intro acc h
    have hL : (("<head").data).length = 5 := rfl
    by_cases hstart : startsWithCI (("<head").data) (c :: rest) = true
    · rcases hsp : splitAtGt ((c :: rest).drop 5) with _ | ⟨u, a⟩
      · have hng : ((c :: rest).drop 5).contains '>' = false :=
          (contains_false_iff _ _).2 (splitAtGt_none_iff.1 hsp)
        have hrest : hasOpenTag (("<head").data) rest = true := by
          simp only [hasOpenTag, hL, Bool.or_eq_true, Bool.and_eq_true] at h
          rcases h with ⟨_, h2⟩ | h
          · rw [hng] at h2
            exact absurd h2 (by simp)
          · exact h
        obtain ⟨pre, h5, grp, post, hcs, hci, hgrp, hfirst, hres⟩ := ih (acc ++ [c]) hrest
        refine ⟨c :: pre, h5, grp, post, by simp [hcs], hci, hgrp, ?_, ?_⟩
        · intro t ht hlen
          rcases List.suffix_cons_iff.1 ht with rfl | ht2
          · rintro ⟨_, hs2⟩
            rw [hng] at hs2
            exact absurd hs2 (by simp)
          · exact hfirst t ht2 hlen
        · have hsp2 : splitAtGt (List.drop 4 rest) = none := by
            simpa using hsp
          have heq : replaceHeadAux esc acc (c :: rest)
              = c :: replaceHeadAux esc (acc ++ [c]) rest := by
            simp [replaceHeadAux, hstart, hsp2]
          rw [heq, hres]
          simp [List.append_assoc]
      · obtain ⟨u0, hu0, hdrop, hmem⟩ := splitAtGt_some hsp
        have hlen5 : 5 ≤ (c :: rest).length := by
          have := startsWithCI_length hstart
          rw [hL] at this
          exact this
        have htd : (c :: rest) = (c :: rest).take 5 ++ ((c :: rest).drop 5) :=
          (List.take_append_drop 5 (c :: rest)).symm
        refine ⟨[], (c :: rest).take 5, u0, a, ?_, ?_, hmem, ?_, ?_⟩
        · rw [List.nil_append]
          conv_lhs => rw [htd, hdrop]
          simp [List.append_assoc]
        · have hmap := startsWithCI_map_toLower hstart
          rw [hL] at hmap
          rw [hmap]
          decide
        · intro t ht hlen
          exfalso
          have h1 := ht.length_le
          simp only [List.length_cons] at h1
          have e1 := congrArg List.length hdrop
          simp only [List.length_drop, List.length_append, List.length_cons] at e1
          omega
        · have hsp2 : splitAtGt (List.drop 4 rest) = some (u, a) := by
            simpa using hsp
          have heq : replaceHeadAux esc acc (c :: rest) =
              getSubstitution1 ((c :: rest).take 5 ++ u) acc a u.dropLast
                ((("<head$1><title>").data) ++ esc ++ (("</title>").data)) ++ a := by
            simp [replaceHeadAux, hstart, hsp2]
          rw [heq, hu0]
          rw [show (c :: rest).take 5 ++ (u0 ++ ['>'])
            = ((c :: rest).take 5 ++ u0) ++ ['>'] from by simp [List.append_assoc]]
          rw [show ((u0 ++ ['>'])).dropLast = u0 from by simp]
          rw [List.append_assoc (("<head$1><title>").data) esc (("</title>").data)]
          rw [getSubstitution1_head_template]
          simp [List.append_assoc]
    · have hrest : hasOpenTag (("<head").data) rest = true := by
        simp only [hasOpenTag, hL, Bool.or_eq_true, Bool.and_eq_true] at h
        rcases h with ⟨h1, _⟩ | h
        · exact absurd h1 hstart
        · exact h
      obtain ⟨pre, h5, grp, post, hcs, hci, hgrp, hfirst, hres⟩ := ih (acc ++ [c]) hrest
      refine ⟨c :: pre, h5, grp, post, by simp [hcs], hci, hgrp, ?_, ?_⟩
      · intro t ht hlen
        rcases List.suffix_cons_iff.1 ht with rfl | ht2
        · rintro ⟨hs1, _⟩
          exact hstart hs1
        · exact hfirst t ht2 hlen
      · have heq : replaceHeadAux esc acc (c :: rest)
            = c :: replaceHeadAux esc (acc ++ [c]) rest := by
          simp [replaceHeadAux, hstart]
        rw [heq, hres]
        simp [List.append_assoc]

/-- When the escaped title carries no `$`, the inserted block is literal:
the classical decomposition of the head-branch insertion. -/
theorem replaceHeadAux_decomp_lit (esc : List Char) (hesc : '$' ∉ esc)
    (cs : List Char) (h : hasOpenTag (("<head").data) cs = true) :
    ∃ pre h5 grp post,
      cs = pre ++ h5 ++ grp ++ '>' :: post ∧
      h5.map Char.toLower = ("<head").data ∧
      (∀ x ∈ grp, x ≠ '>') ∧
      (∀ t, t <:+ cs → grp.length + post.length + 6 < t.length →
        ¬(startsWithCI (("<head").data) t = true ∧ (t.drop 5).contains '>' = true)) ∧
      replaceHeadAux esc [] cs =
        pre ++ ("<head").data ++ grp ++ '>' :: ("<title>").data
          ++ esc ++ ("</title>").data ++ post := by
  obtain ⟨pre, h5, grp, post, hcs, hci, hgrp, hfirst, hres⟩ :=
    replaceHeadAux_decomp esc cs [] h
  refine ⟨pre, h5, grp, post, hcs, hci, hgrp, hfirst, ?_⟩
  rw [hres]
  rw [getSubstitution1_no_dollar _ _ _ _ _ (by
    intro hx
    rcases List.mem_append.1 hx with h1 | h1
    · exact hesc h1
    · revert h1
      decide)]
  simp [List.append_assoc]

theorem starts_false_of_mem_heads {tag0 : Char} (tags : List Char) {xs : List Char}
    (R : List Char) (hx : ∀ x ∈ xs, ¬ x.toLower = tag0.toLower) :
    ∀ a, a <:+ xs → a ≠ [] →
      (startsWithCI (tag0 :: tags) (a ++ R) &&
        ((a ++ R).drop (tag0 :: tags).length).contains '>') = false := by
  intro a ha hne
  cases a with
  | nil => exact absurd rfl hne
  | cons x a2 =>
    have hmem : x ∈ xs := ha.subset (by simp)
    rw [show ((x :: a2) ++ R) = x :: (a2 ++ R) from rfl]
    rw [startsWithCI_cons_false _ _ (hx x hmem)]
    simp

theorem hasOpenTag_suffix_false {tag s t : List Char}
    (h : hasOpenTag tag s = false) (ht : t <:+ s) : hasOpenTag tag t = false := by
  rcases hb : hasOpenTag tag t with _ | _
  · rfl
  · exfalso
    obtain ⟨u, hu, hs1, hc1⟩ := hasOpenTag_iff.1 hb
    have : hasOpenTag tag s = true := hasOpenTag_iff.2 ⟨u, hu.trans ht, hs1, hc1⟩
    rw [h] at this
    exact absurd this (by simp)

theorem count_title_front (R : List Char) :
    countOpenTag (("<title").data) (("<title>").data ++ R) =
      1 + countOpenTag (("<title").data) R := by
  have e1 : (("<title>").data ++ R) = '<' :: (("title>").data ++ R) := rfl
  rw [e1, countOpenTag_cons]
  have h1 : startsWithCI (("<title").data) ('<' :: (("title>").data ++ R)) = true := by
    rw [show ('<' :: (("title>").data ++ R)) = (("<title>").data ++ R) from rfl]
    rw [startsWithCI_append_left R (by decide)]
    decide
  have h2 : (('<' :: (("title>").data ++ R)).drop ((("<title").data).length)).contains '>'
      = true := by
    rw [show (("<title").data).length = 6 from rfl]
    rw [show ('<' :: (("title>").data ++ R)).drop 6 = '>' :: R from rfl]
    simp
  rw [h1, h2]
  rw [countOpenTag_append_zero _ (("title>").data) R
    (starts_false_of_mem_heads _ R (by decide))]
  simp

theorem count_closing_title (R : List Char) :
    countOpenTag (("<title").data) (("</title>").data ++ R) =
      countOpenTag (("<title").data) R := by
  have e1 : (("</title>").data ++ R) = '<' :: (("/title>").data ++ R) := rfl
  rw [e1, countOpenTag_cons]
  have h1 : startsWithCI (("<title").data) ('<' :: (("/title>").data ++ R)) = false := by
    rw [show ('<' :: (("/title>").data ++ R)) = (("</title>").data ++ R) from rfl]
    rw [startsWithCI_append_left R (by decide)]
    decide
  rw [h1]
  rw [countOpenTag_append_zero _ (("/title>").data) R
    (starts_false_of_mem_heads _ R (by decide))]
  simp

theorem count_title_block (esc R : List Char) (hesc : ∀ x ∈ esc, x ≠ '<')
    (hR : countOpenTag (("<title").data) R = 0) :
    countOpenTag (("<title").data)
      (("<title>").data ++ esc ++ ("</title>").data ++ R) = 1 := by
  have hx : ∀ x ∈ esc, ¬ x.toLower = ('<').toLower := by
    intro x hm
    rw [show ('<').toLower = '<' from by decide, toLower_eq_lt_iff]
    exact hesc x hm
  rw [List.append_assoc, List.append_assoc, count_title_front,
    countOpenTag_append_zero _ esc _ (starts_false_of_mem_heads _ _ hx),
    count_closing_title, hR]
/-- Claim C8 (corrected): `ensureTitle` is a no-op for an absent or empty
title and when a `<title...>` tag already exists (case-insensitively); with
no `<head...>` tag it prepends the literal `<title>E</title>`, `E` the
five-entity escape of the title; after the first `<head...>` opening tag it
inserts `<title>` followed by the `GetSubstitution`-processed remainder of
the template — which equals the literal `E</title>` exactly when the title
carries no `$` (a `$`-pattern in the title is substituted by the real
`String.replace`, see the counterexample) — and in the `$`-free case a
single call never yields two title tags. -/
theorem claim_C8_corrected (html : String) (s : String) :
    (ensureTitle html none = html) ∧
    (ensureTitle html (some "") = html) ∧
    ((escapeHtml s).data = (s.data.map escChar).join) ∧
    (s ≠ "" → hasOpenTag (("<title").data) html.data = true →
      ensureTitle html (some s) = html) ∧
    (s ≠ "" → hasOpenTag (("<title").data) html.data = false →
      hasOpenTag (("<head").data) html.data = false →
      ensureTitle html (some s) = "<title>" ++ escapeHtml s ++ "</title>" ++ html) ∧
    (s ≠ "" → hasOpenTag (("<title").data) html.data = false →
      hasOpenTag (("<head").data) html.data = true →
      ∃ pre h5 grp post,
        html.data = pre ++ h5 ++ grp ++ '>' :: post ∧
        h5.map Char.toLower = ("<head").data ∧
        (∀ x ∈ grp, x ≠ '>') ∧
        (∀ t, t <:+ html.data → grp.length + post.length + 6 < t.length →
          ¬(startsWithCI (("<head").data) t = true ∧ (t.drop 5).contains '>' = true)) ∧
        (ensureTitle html (some s)).data =
          pre ++ ("<head").data ++ grp ++ '>' :: ("<title>").data
            ++ getSubstitution1 (h5 ++ grp ++ ['>']) pre post grp
                ((escapeHtml s).data ++ (("</title>").data)) ++ post ∧
        ('$' ∉ s.data →
          (ensureTitle html (some s)).data =
            pre ++ ("<head").data ++ grp ++ '>' :: ("<title>").data
              ++ (escapeHtml s).data ++ ("</title>").data ++ post)) ∧
    (s ≠ "" → hasOpenTag (("<title").data) html.data = false → '$' ∉ s.data →
      countOpenTag (("<title").data) (ensureTitle html (some s)).data = 1) := by
  refine ⟨rfl, by simp [ensureTitle], escapeHtml_data s, ?_, ?_, ?_, ?_⟩
  · intro hs htitle
    simp [ensureTitle, hs, htitle]
  · intro hs htitle hhead
    simp [ensureTitle, hs, htitle, hhead]
  · intro hs htitle hhead
    obtain ⟨pre, h5, grp, post, hcs, hci, hgrp, hfirst, hres⟩ :=
      replaceHeadAux_decomp ((escapeHtml s).data) html.data [] hhead
    have he : ensureTitle html (some s) =
        String.mk (replaceHeadAux ((escapeHtml s).data) [] html.data) := by
      simp [ensureTitle, hs, htitle, hhead]
    have hgen : (ensureTitle html (some s)).data =
        pre ++ ("<head").data ++ grp ++ '>' :: ("<title>").data
          ++ getSubstitution1 (h5 ++ grp ++ ['>']) pre post grp
              ((escapeHtml s).data ++ (("</title>").data)) ++ post := by
      rw [he]
      show replaceHeadAux ((escapeHtml s).data) [] html.data = _
      rw [hres]
      rw [List.nil_append]
    refine ⟨pre, h5, grp, post, hcs, hci, hgrp, hfirst, hgen, ?_⟩
    intro hdol
    rw [hgen]
    rw [getSubstitution1_no_dollar _ _ _ _ _ (by
      intro hx
      rcases List.mem_append.1 hx with h1 | h1
      · exact escapeHtml_no_dollar s hdol h1
      · revert h1
        decide)]
    simp [List.append_assoc]
  · intro hs htitle hdol
    rcases hhead : hasOpenTag (("<head").data) html.data with _ | _
    · have he : ensureTitle html (some s) =
          "<title>" ++ escapeHtml s ++ "</title>" ++ html := by
        simp [ensureTitle, hs, htitle, hhead]
      rw [he]
      have hdata : ("<title>" ++ escapeHtml s ++ "</title>" ++ html).data =
          ("<title>").data ++ (escapeHtml s).data ++ ("</title>").data ++ html.data := by
        simp
      rw [hdata]
      exact count_title_block _ _ (escapeHtml_no_lt s)
        (countOpenTag_zero_of_not_open _ _ htitle)
    · obtain ⟨pre, h5, grp, post, hcs, hci, hgrp, hfirst, hres⟩ :=
        replaceHeadAux_decomp_lit ((escapeHtml s).data)
          (escapeHtml_no_dollar s hdol) html.data hhead
      have he : (ensureTitle html (some s)).data =
          pre ++ ("<head").data ++ grp ++ '>' :: ("<title>").data
            ++ (escapeHtml s).data ++ ("</title>").data ++ post := by
        have h0 : ensureTitle html (some s) =
            String.mk (replaceHeadAux ((escapeHtml s).data) [] html.data) := by
          simp [ensureTitle, hs, htitle, hhead]
        rw [h0]
        show replaceHeadAux ((escapeHtml s).data) [] html.data = _
        rw [hres]
      rw [he]
      have hcieq : (pre ++ ("<head").data ++ grp).map Char.toLower =
          (pre ++ h5 ++ grp).map Char.toLower := by
        simp only [List.map_append, hci]
        rw [show (("<head").data).map Char.toLower = ("<head").data from by decide]
      have horig : ∀ b, b <:+ pre ++ h5 ++ grp → (("<title").data).length ≤ b.length →
          startsWithCI (("<title").data) (b ++ '>' :: post) = false := by
        intro b hb hlen6
        rw [show ((("<title").data).length) = 6 from rfl] at hlen6
        have hsuf : b ++ '>' :: post <:+ html.data := by
          rw [hcs]
          exact suffix_append_both hb
        rcases hsw : startsWithCI (("<title").data) (b ++ '>' :: post) with _ | _
        · rfl
        · exfalso
          have hcont : ((b ++ '>' :: post).drop 6).contains '>' = true := by
            rw [List.drop_append_of_le_length hlen6]
            simp
          have : hasOpenTag (("<title").data) html.data = true :=
            hasOpenTag_iff.2 ⟨b ++ '>' :: post, hsuf, hsw,
              by rw [show ((("<title").data).length) = 6 from rfl]; exact hcont⟩
          rw [htitle] at this
          exact absurd this (by simp)
      have hzone := zone_starts_false (("<title").data) (by decide)
        (pre ++ ("<head").data ++ grp) (pre ++ h5 ++ grp)
        (("<title>").data ++ (escapeHtml s).data ++ ("</title>").data ++ post)
        ('>' :: post) hcieq horig
      have hzero : ∀ a, a <:+ (pre ++ ("<head").data ++ grp) → a ≠ [] →
          (startsWithCI (("<title").data)
              (a ++ ('>' :: (("<title>").data ++ (escapeHtml s).data
                ++ ("</title>").data ++ post))) &&
            ((a ++ ('>' :: (("<title>").data ++ (escapeHtml s).data
                ++ ("</title>").data ++ post))).drop
              ((("<title").data).length)).contains '>') = false := by
        intro a ha _
        rw [hzone a ha]
        simp
      rw [show pre ++ ("<head").data ++ grp ++ '>' :: ("<title>").data
            ++ (escapeHtml s).data ++ ("</title>").data ++ post
          = (pre ++ ("<head").data ++ grp) ++ ('>' :: (("<title>").data
            ++ (escapeHtml s).data ++ ("</title>").data ++ post)) from by
        simp [List.append_assoc]]
      rw [countOpenTag_append_zero _ _ _ hzero]
      rw [countOpenTag_cons, startsWithCI_cons_false _ _ (by decide)]
      have hpost : post <:+ html.data := by
        rw [hcs]
        exact ⟨pre ++ h5 ++ grp ++ ['>'], by simp [List.append_assoc]⟩
      have hpost0 : countOpenTag (("<title").data) post = 0 :=
        countOpenTag_zero_of_not_open _ _ (hasOpenTag_suffix_false htitle hpost)
      rw [count_title_block _ _ (escapeHtml_no_lt s) hpost0]
      simp

theorem claim_C8_witness :
    ("T" : String) ≠ "" ∧
    hasOpenTag (("<title").data) ("<p>a</p>").data = false ∧
    ('$' : Char) ∉ ("T" : String).data ∧
    ensureTitle "<p>a</p>" (some "T") = "<title>T</title><p>a</p>" ∧
    countOpenTag (("<title").data) (ensureTitle "<p>a</p>" (some "T")).data = 1 := by
  refine ⟨by decide, by decide, by decide, ?_, ?_⟩
  · have h := (claim_C8_corrected "<p>a</p>" "T").2.2.2.2.1 (by decide) (by decide)
      (by decide)
    rw [h]
    decide
  · exact (claim_C8_corrected "<p>a</p>" "T").2.2.2.2.2.2 (by decide) (by decide)
      (by decide)

/-- Claim C8 counterexample: on the title `"$$"` the real `String.replace`
substitutes `$$` to `$` inside the inserted block — the claimed literal
five-entity-escaped insertion `<title>$$</title>` is not what comes out. -/
theorem claim_C8_counterexample :
    ensureTitle "<head>x" (some "$$") = "<head><title>$</title>x" ∧
    ensureTitle "<head>x" (some "$$") ≠ "<head><title>$$</title>x" := by
  refine ⟨by decide, by decide⟩

/-! ## The image regex scanner -/

theorem altWindow_gt_c (d e f g : Char) : altWindow '>' d e f g = false := by
  unfold altWindow
  rw [show jsWhitespace '>' = false from by decide]
  simp

theorem altWindow_gt_d (c e f g : Char) : altWindow c '>' e f g = false := by
  unfold altWindow
  rw [show decide (('>').toLower = 'a') = false from by decide]
  simp

theorem altWindow_gt_e (c d f g : Char) : altWindow c d '>' f g = false := by
  unfold altWindow
  rw [show decide (('>').toLower = 'l') = false from by decide]
  simp

theorem altWindow_gt_f (c d e g : Char) : altWindow c d e '>' g = false := by
  unfold altWindow
  rw [show decide (('>').toLower = 't') = false from by decide]
  simp

theorem hasAltAhead_cons (c : Char) (rest : List Char) :
    hasAltAhead (c :: rest) =
      ((match rest with
        | d :: e :: f :: g :: _ => altWindow c d e f g
        | _ => false) || (decide (c ≠ '>') && hasAltAhead rest)) := by
  match rest with
  | [] => simp [hasAltAhead]
  | [d] => simp [hasAltAhead]
  | [d, e] => simp [hasAltAhead]
  | [d, e, f] => simp [hasAltAhead]
  | d :: e :: f :: g :: r2 => rfl

theorem hasAltAhead_gt (t : List Char) : hasAltAhead ('>' :: t) = false := by
  rw [hasAltAhead_cons]
  rcases t with _ | ⟨d, _ | ⟨e, _ | ⟨f, _ | ⟨g, r⟩⟩⟩⟩ <;>
    simp [altWindow_gt_c]

theorem hasAltAhead_tail_indep : ∀ (X : List Char), (∀ x ∈ X, x ≠ '>') →
    ∀ t s, hasAltAhead (X ++ '>' :: t) = hasAltAhead (X ++ '>' :: s) := by
  intro X
  induction X with
  | nil =>
    intro _ t s
    rw [List.nil_append, List.nil_append, hasAltAhead_gt, hasAltAhead_gt]
  | cons x X ih =>
    intro hX t s
    have ihts := ih (fun y hy => hX y (by simp [hy])) t s
    rw [List.cons_append, List.cons_append, hasAltAhead_cons, hasAltAhead_cons, ihts]
    congr 1
    rcases X with _ | ⟨a1, X1⟩
    · rcases t with _ | ⟨t1, _ | ⟨t2, _ | ⟨t3, tr⟩⟩⟩ <;>
        rcases s with _ | ⟨s1, _ | ⟨s2, _ | ⟨s3, sr⟩⟩⟩ <;>
        simp [altWindow_gt_d]
    · rcases X1 with _ | ⟨a2, X2⟩
      · rcases t with _ | ⟨t1, _ | ⟨t2, tr⟩⟩ <;>
          rcases s with _ | ⟨s1, _ | ⟨s2, sr⟩⟩ <;>
          simp [altWindow_gt_e]
      · rcases X2 with _ | ⟨a3, X3⟩
        · rcases t with _ | ⟨t1, tr⟩ <;> rcases s with _ | ⟨s1, sr⟩ <;>
            simp [altWindow_gt_f]
        · rcases X3 with _ | ⟨a4, X4⟩ <;> simp

theorem imgScanF_congr : ∀ (n fuel fuel2 : Nat) (cs : List Char),
    cs.length ≤ fuel → cs.length ≤ fuel2 → cs.length ≤ n →
    imgScanF fuel cs = imgScanF fuel2 cs := by
  intro n
  induction n with
  | zero =>
    intro fuel fuel2 cs h1 h2 h3
    have hnil : cs = [] := List.length_eq_zero.1 (Nat.le_zero.1 h3)
    subst hnil
    cases fuel <;> cases fuel2 <;> rfl
  | succ n ih =>
    intro fuel fuel2 cs h1 h2 h3
    cases cs with
    | nil => cases fuel <;> cases fuel2 <;> rfl
    | cons c rest =>
      cases fuel with
      | zero => simp at h1
      | succ f =>
        cases fuel2 with
        | zero => simp at h2
        | succ f2 =>
          simp only [List.length_cons, Nat.add_le_add_iff_right] at h1 h2 h3
          simp only [imgScanF]
          by_cases hpfx : startsWithCI ("<img").data (c :: rest) = true
          · rw [if_pos hpfx, if_pos hpfx]
            by_cases halt : hasAltAhead ((c :: rest).drop 4) = true
            · rw [if_pos halt, if_pos halt]
              exact ih f f2 rest h1 h2 h3
            · rw [if_neg halt, if_neg halt]
              rcases hsp : splitAtGt ((c :: rest).drop 4) with _ | ⟨u, a⟩
              · exact ih f f2 rest h1 h2 h3
              · obtain ⟨u0, hu0, hdrop, hmem⟩ := splitAtGt_some hsp
                have e1 := congrArg List.length hdrop
                simp only [List.length_drop, List.length_append, List.length_cons] at e1
                have ha : a.length ≤ n := by omega
                show ((c :: rest).take 4 ++ u) :: imgScanF f a =
                  ((c :: rest).take 4 ++ u) :: imgScanF f2 a
                congr 1
                exact ih f f2 a (by omega) (by omega) ha
          · rw [if_neg hpfx, if_neg hpfx]
            exact ih f f2 rest h1 h2 h3

theorem imgScanF_eq_imgScan {fuel : Nat} {cs : List Char} (h : cs.length ≤ fuel) :
    imgScanF fuel cs = imgScan cs :=
  imgScanF_congr cs.length fuel cs.length cs h (Nat.le_refl _) (Nat.le_refl _)

theorem imgScan_cons_no {c : Char} {rest : List Char}
    (h : startsWithCI ("<img").data (c :: rest) = false) :
    imgScan (c :: rest) = imgScan rest := by
  show imgScanF (rest.length + 1) (c :: rest) = imgScanF rest.length rest
  simp [imgScanF, h]

theorem imgScan_cons_alt {c : Char} {rest : List Char}
    (hpfx : startsWithCI ("<img").data (c :: rest) = true)
    (halt : hasAltAhead (rest.drop 3) = true) :
    imgScan (c :: rest) = imgScan rest := by
  show imgScanF (rest.length + 1) (c :: rest) = imgScanF rest.length rest
  simp [imgScanF, hpfx, halt]

theorem imgScan_cons_none {c : Char} {rest : List Char}
    (hpfx : startsWithCI ("<img").data (c :: rest) = true)
    (halt : hasAltAhead (rest.drop 3) = false)
    (hsp : splitAtGt (rest.drop 3) = none) :
    imgScan (c :: rest) = imgScan rest := by
  show imgScanF (rest.length + 1) (c :: rest) = imgScanF rest.length rest
  simp [imgScanF, hpfx, halt, hsp]

theorem imgScan_cons_match {c : Char} {rest u a : List Char}
    (hpfx : startsWithCI ("<img").data (c :: rest) = true)
    (halt : hasAltAhead (rest.drop 3) = false)
    (hsp : splitAtGt (rest.drop 3) = some (u, a)) :
    imgScan (c :: rest) = ((c :: rest.take 3) ++ u) :: imgScan a := by
  show imgScanF (rest.length + 1) (c :: rest) = _
  have hlen : a.length ≤ rest.length := by
    obtain ⟨u0, hu0, hdrop, hmem⟩ := splitAtGt_some hsp
    have e1 := congrArg List.length hdrop
    simp only [List.length_drop, List.length_append, List.length_cons] at e1
    omega
  simp only [imgScanF, hpfx, if_true, halt, Bool.false_eq_true, if_false, hsp,
    List.drop_succ_cons, List.take_succ_cons]
  rw [imgScanF_eq_imgScan hlen]
theorem imgScan_mem_aux : ∀ (n : Nat) (cs : List Char), cs.length ≤ n →
    ∀ m ∈ imgScan cs,
      ∃ m4 u0, m = m4 ++ u0 ++ ['>'] ∧ m4.map Char.toLower = ("<img").data ∧
        (∀ x ∈ u0, x ≠ '>') ∧ hasAltAhead (u0 ++ ['>']) = false := by
  intro n
  induction n with
  | zero =>
    intro cs h m hm
    have hnil : cs = [] := List.length_eq_zero.1 (Nat.le_zero.1 h)
    subst hnil
    simp [imgScan, imgScanF] at hm
  | succ n ih =>
    intro cs h m hm
    cases cs with
    | nil => simp [imgScan, imgScanF] at hm
    | cons c rest =>
      simp only [List.length_cons, Nat.add_le_add_iff_right] at h
      by_cases hpfx : startsWithCI ("<img").data (c :: rest) = true
      · by_cases halt : hasAltAhead (rest.drop 3) = true
        · rw [imgScan_cons_alt hpfx halt] at hm
          exact ih rest h m hm
        · rw [Bool.not_eq_true] at halt
          rcases hsp : splitAtGt (rest.drop 3) with _ | ⟨u, a⟩
          · rw [imgScan_cons_none hpfx halt hsp] at hm
            exact ih rest h m hm
          · rw [imgScan_cons_match hpfx halt hsp] at hm
            rcases List.mem_cons.1 hm with rfl | hm2
            · obtain ⟨u0, hu0, hdrop, hmem⟩ := splitAtGt_some hsp
              refine ⟨c :: rest.take 3, u0, ?_, ?_, hmem, ?_⟩
              · rw [hu0]
                simp [List.append_assoc]
              · have hmap := startsWithCI_map_toLower hpfx
                rw [show ((("<img").data).length) = 4 from rfl] at hmap
                rw [show (c :: rest).take 4 = c :: rest.take 3 from rfl] at hmap
                rw [hmap]
                decide
              · rw [hdrop] at halt
                have h2 := hasAltAhead_tail_indep u0 hmem a []
                rw [halt] at h2
                exact h2.symm
            · have hlen : a.length ≤ n := by
                obtain ⟨u0, hu0, hdrop, hmem⟩ := splitAtGt_some hsp
                have e1 := congrArg List.length hdrop
                simp only [List.length_drop, List.length_append, List.length_cons] at e1
                omega
              exact ih a hlen m hm2
      · rw [Bool.not_eq_true] at hpfx
        rw [imgScan_cons_no hpfx] at hm
        exact ih rest h m hm

theorem imgScan_shape {cs m : List Char} (hm : m ∈ imgScan cs) :
    ∃ m4 u0, m = m4 ++ u0 ++ ['>'] ∧ m4.map Char.toLower = ("<img").data ∧
      (∀ x ∈ u0, x ≠ '>') ∧ hasAltAhead (u0 ++ ['>']) = false :=
  imgScan_mem_aux cs.length cs (Nat.le_refl _) m hm

/-! ## The marked-rewrite view of `ensureImageAlt` -/

theorem render_nil : render [] = [] := rfl

theorem render_cons_false (c : Char) (l : List (Char × Bool)) :
    render ((c, false) :: l) = c :: render l := rfl

theorem render_cons_true (c : Char) (l : List (Char × Bool)) :
    render ((c, true) :: l) = insChars ++ c :: render l := rfl

theorem render_append : ∀ (l1 l2 : List (Char × Bool)),
    render (l1 ++ l2) = render l1 ++ render l2 := by
  intro l1 l2
  induction l1 with
  | nil => rfl
  | cons p l ih =>
    rcases p with ⟨c, b⟩
    cases b <;> simp [render, ih]

theorem render_unflagged_map : ∀ xs : List Char,
    render (xs.map fun x => (x, false)) = xs := by
  intro xs
  induction xs with
  | nil => rfl
  | cons x xs ih => simp [render, ih]

theorem suffix_append_cases {t xs ys : List Char} (h : t <:+ xs ++ ys) :
    t <:+ ys ∨ ∃ s, s <:+ xs ∧ s ≠ [] ∧ t = s ++ ys := by
  induction xs with
  | nil => exact Or.inl (by simpa using h)
  | cons x xs ih =>
    rw [List.cons_append] at h
    rcases List.suffix_cons_iff.1 h with rfl | h2
    · exact Or.inr ⟨x :: xs, List.suffix_refl _, by simp, by simp⟩
    · rcases ih h2 with h3 | ⟨s, hs, hne, rfl⟩
      · exact Or.inl h3
      · exact Or.inr ⟨s, hs.trans (List.suffix_cons x xs), hne, rfl⟩

theorem suffix_append_cases_mk {t : List (Char × Bool)} {xs ys : List (Char × Bool)}
    (h : t <:+ xs ++ ys) :
    t <:+ ys ∨ ∃ s, s <:+ xs ∧ s ≠ [] ∧ t = s ++ ys := by
  induction xs with
  | nil => exact Or.inl (by simpa using h)
  | cons x xs ih =>
    rw [List.cons_append] at h
    rcases List.suffix_cons_iff.1 h with rfl | h2
    · exact Or.inr ⟨x :: xs, List.suffix_refl _, by simp, by simp⟩
    · rcases ih h2 with h3 | ⟨s, hs, hne, rfl⟩
      · exact Or.inl h3
      · exact Or.inr ⟨s, hs.trans (List.suffix_cons x xs), hne, rfl⟩

theorem markF_congr : ∀ (n fuel fuel2 : Nat) (cs : List Char),
    cs.length ≤ fuel → cs.length ≤ fuel2 → cs.length ≤ n →
    markF fuel cs = markF fuel2 cs := by
  intro n
  induction n with
  | zero =>
    intro fuel fuel2 cs h1 h2 h3
    have hnil : cs = [] := List.length_eq_zero.1 (Nat.le_zero.1 h3)
    subst hnil
    cases fuel <;> cases fuel2 <;> rfl
  | succ n ih =>
    intro fuel fuel2 cs h1 h2 h3
    cases cs with
    | nil => cases fuel <;> cases fuel2 <;> rfl
    | cons c rest =>
      cases fuel with
      | zero => simp at h1
      | succ f =>
        cases fuel2 with
        | zero => simp at h2
        | succ f2 =>
          simp only [List.length_cons, Nat.add_le_add_iff_right] at h1 h2 h3
          simp only [markF]
          by_cases hpfx : startsWithCI ("<img").data (c :: rest) = true
          · rw [if_pos hpfx, if_pos hpfx]
            by_cases halt : hasAltAhead ((c :: rest).drop 4) = true
            · rw [if_pos halt, if_pos halt]
              rw [ih f f2 rest h1 h2 h3]
            · rw [if_neg halt, if_neg halt]
              rcases hsp : splitAtGt ((c :: rest).drop 4) with _ | ⟨u, a⟩
              · rw [ih f f2 rest h1 h2 h3]
              · obtain ⟨u0, hu0, hdrop, hmem⟩ := splitAtGt_some hsp
                have e1 := congrArg List.length hdrop
                simp only [List.length_drop, List.length_append, List.length_cons] at e1
                show (((c :: rest).take 4 ++ u.dropLast).map fun x => (x, false))
                    ++ ('>', true) :: markF f a =
                  (((c :: rest).take 4 ++ u.dropLast).map fun x => (x, false))
                    ++ ('>', true) :: markF f2 a
                rw [ih f f2 a (by omega) (by omega) (by omega)]
          · rw [if_neg hpfx, if_neg hpfx]
            rw [ih f f2 rest h1 h2 h3]

theorem markF_eq_mark {fuel : Nat} {cs : List Char} (h : cs.length ≤ fuel) :
    markF fuel cs = mark cs :=
  markF_congr cs.length fuel cs.length cs h (Nat.le_refl _) (Nat.le_refl _)

theorem mark_cons_no {c : Char} {rest : List Char}
    (h : startsWithCI ("<img").data (c :: rest) = false) :
    mark (c :: rest) = (c, false) :: mark rest := by
  show markF (rest.length + 1) (c :: rest) = _
  simp [markF, h]
  rfl

theorem mark_cons_alt {c : Char} {rest : List Char}
    (hpfx : startsWithCI ("<img").data (c :: rest) = true)
    (halt : hasAltAhead (rest.drop 3) = true) :
    mark (c :: rest) = (c, false) :: mark rest := by
  show markF (rest.length + 1) (c :: rest) = _
  simp [markF, hpfx, halt]
  rfl

theorem mark_cons_none {c : Char} {rest : List Char}
    (hpfx : startsWithCI ("<img").data (c :: rest) = true)
    (halt : hasAltAhead (rest.drop 3) = false)
    (hsp : splitAtGt (rest.drop 3) = none) :
    mark (c :: rest) = (c, false) :: mark rest := by
  show markF (rest.length + 1) (c :: rest) = _
  simp [markF, hpfx, halt, hsp]
  rfl

theorem mark_cons_match {c : Char} {rest u a : List Char}
    (hpfx : startsWithCI ("<img").data (c :: rest) = true)
    (halt : hasAltAhead (rest.drop 3) = false)
    (hsp : splitAtGt (rest.drop 3) = some (u, a)) :
    mark (c :: rest) =
      (((c :: rest.take 3) ++ u.dropLast).map fun x => (x, false))
        ++ ('>', true) :: mark a := by
  show markF (rest.length + 1) (c :: rest) = _
  have hlen : a.length ≤ rest.length := by
    obtain ⟨u0, hu0, hdrop, hmem⟩ := splitAtGt_some hsp
    have e1 := congrArg List.length hdrop
    simp only [List.length_drop, List.length_append, List.length_cons] at e1
    omega
  simp only [markF, hpfx, if_true, halt, Bool.false_eq_true, if_false, hsp,
    List.drop_succ_cons, List.take_succ_cons]
  rw [markF_eq_mark hlen]

theorem splitAtGt_after_len {rest u a : List Char}
    (hsp : splitAtGt (rest.drop 3) = some (u, a)) :
    a.length + 4 ≤ rest.length := by
  obtain ⟨u0, hu0, hdrop, hmem⟩ := splitAtGt_some hsp
  have e1 := congrArg List.length hdrop
  simp only [List.length_drop, List.length_append, List.length_cons] at e1
  omega

theorem mark_flags : ∀ (n : Nat) (cs : List Char), cs.length ≤ n →
    ∀ p ∈ mark cs, p.2 = true → p.1 = '>' := by
  intro n
  induction n with
  | zero =>
    intro cs h p hp
    have hnil : cs = [] := List.length_eq_zero.1 (Nat.le_zero.1 h)
    subst hnil
    simp [mark, markF] at hp
  | succ n ih =>
    intro cs h p hp hb
    cases cs with
    | nil => simp [mark, markF] at hp
    | cons c rest =>
      simp only [List.length_cons, Nat.add_le_add_iff_right] at h
      by_cases hpfx : startsWithCI ("<img").data (c :: rest) = true
      · by_cases halt : hasAltAhead (rest.drop 3) = true
        · rw [mark_cons_alt hpfx halt] at hp
          rcases List.mem_cons.1 hp with rfl | hp2
          · simp at hb
          · exact ih rest h p hp2 hb
        · rw [Bool.not_eq_true] at halt
          rcases hsp : splitAtGt (rest.drop 3) with _ | ⟨u, a⟩
          · rw [mark_cons_none hpfx halt hsp] at hp
            rcases List.mem_cons.1 hp with rfl | hp2
            · simp at hb
            · exact ih rest h p hp2 hb
          · rw [mark_cons_match hpfx halt hsp] at hp
            rcases List.mem_append.1 hp with hp2 | hp2
            · rcases List.mem_map.1 hp2 with ⟨x, -, rfl⟩
              simp at hb
            · rcases List.mem_cons.1 hp2 with rfl | hp3
              · rfl
              · have hlen : a.length ≤ n := by
                  have := splitAtGt_after_len hsp
                  omega
                exact ih a hlen p hp3 hb
      · rw [Bool.not_eq_true] at hpfx
        rw [mark_cons_no hpfx] at hp
        rcases List.mem_cons.1 hp with rfl | hp2
        · simp at hb
        · exact ih rest h p hp2 hb

theorem hasAltAhead_insChars (z : List Char) :
    hasAltAhead (insChars ++ z) = true := by
  show hasAltAhead (' ' :: 'a' :: 'l' :: 't' :: '=' :: '"' :: '"' :: z) = true
  rw [hasAltAhead_cons, Bool.or_eq_true]
  left
  show altWindow ' ' 'a' 'l' 't' '=' = true
  decide

theorem hasAltAhead_before_insChars : ∀ (Y z : List Char), (∀ y ∈ Y, y ≠ '>') →
    hasAltAhead (Y ++ insChars ++ z) = true := by
  intro Y
  induction Y with
  | nil =>
    intro z _
    rw [List.nil_append]
    exact hasAltAhead_insChars z
  | cons y Y ih =>
    intro z hY
    have hy : y ≠ '>' := hY y (by simp)
    rw [List.cons_append, List.cons_append, hasAltAhead_cons]
    rw [show (Y ++ insChars) ++ z = Y ++ insChars ++ z from by simp [List.append_assoc]] 
    rw [ih z (fun x hx => hY x (by simp [hx]))]
    simp [hy]

theorem hasAlt_insert_indep : ∀ (Z t t2 : List Char),
    hasAltAhead (Z ++ '>' :: t) = true →
    hasAltAhead (Z ++ insChars ++ '>' :: t2) = true := by
  intro Z
  induction Z with
  | nil =>
    intro t t2 h
    rw [List.nil_append, hasAltAhead_gt] at h
    exact absurd h (by simp)
  | cons z Z ih =>
    intro t t2 h
    rw [List.cons_append, hasAltAhead_cons, Bool.or_eq_true] at h
    rw [show ((z :: Z) ++ insChars ++ '>' :: t2) = z :: (Z ++ insChars ++ '>' :: t2)
      from by simp [List.append_assoc]]
    rw [hasAltAhead_cons, Bool.or_eq_true]
    rcases h with hw | hrec
    · rcases Z with _ | ⟨a1, Z1⟩
      · rcases t with _ | ⟨t1, _ | ⟨tx2, _ | ⟨t3, tr⟩⟩⟩ <;> simp [altWindow_gt_d] at hw
      · rcases Z1 with _ | ⟨a2, Z2⟩
        · rcases t with _ | ⟨t1, _ | ⟨tx2, tr⟩⟩ <;> simp [altWindow_gt_e] at hw
        · rcases Z2 with _ | ⟨a3, Z3⟩
          · rcases t with _ | ⟨t1, tr⟩ <;> simp [altWindow_gt_f] at hw
          · rcases Z3 with _ | ⟨a4, Z4⟩
            · left
              show altWindow z a1 a2 a3 ' ' = true
              have hw2 : altWindow z a1 a2 a3 '>' = true := hw
              simp only [altWindow, Bool.and_eq_true] at hw2 ⊢
              refine ⟨⟨⟨⟨hw2.1.1.1.1, hw2.1.1.1.2⟩, hw2.1.1.2⟩, hw2.1.2⟩, by decide⟩
            · left
              exact hw
    · rw [Bool.and_eq_true] at hrec
      right
      rw [Bool.and_eq_true]
      exact ⟨hrec.1, ih t t2 hrec.2⟩

theorem matchHead_false_of_starts {t : List Char}
    (h : startsWithCI (("<img").data) t = false) : matchHead t = false := by
  simp [matchHead, h]

theorem matchHead_false_of_alt {t : List Char}
    (h : hasAltAhead (t.drop 4) = true) : matchHead t = false := by
  simp [matchHead, h]

theorem matchHead_false_of_nogt {t : List Char}
    (h : ((t.drop 4)).contains '>' = false) : matchHead t = false := by
  simp [matchHead]
  intro _ _
  simpa using h

theorem matchHead_of_shape {m4 u0 : List Char} (w2 : List Char)
    (hmap : m4.map Char.toLower = ("<img").data)
    (hmem : ∀ x ∈ u0, x ≠ '>')
    (halt : hasAltAhead (u0 ++ ['>']) = false) :
    matchHead ((m4 ++ u0 ++ ['>']) ++ w2) = true := by
  have hlen : m4.length = 4 := by
    have := congrArg List.length hmap
    simpa using this
  have hshape : (m4 ++ u0 ++ ['>']) ++ w2 = m4 ++ (u0 ++ '>' :: w2) := by
    simp [List.append_assoc]
  have hs : startsWithCI (("<img").data) ((m4 ++ u0 ++ ['>']) ++ w2) = true := by
    rw [hshape, startsWithCI_append_left _ (by rw [hlen]; decide)]
    have hci : m4.map Char.toLower = (("<img").data).map Char.toLower := by
      rw [hmap]
      decide
    rw [startsWithCI_congr hci]
    decide
  have hd : (((m4 ++ u0 ++ ['>']) ++ w2)).drop 4 = u0 ++ '>' :: w2 := by
    rw [hshape, show (4 : Nat) = m4.length from hlen.symm, List.drop_left]
  have ha : hasAltAhead (u0 ++ '>' :: w2) = false := by
    rw [hasAltAhead_tail_indep u0 hmem w2 []]
    exact halt
  simp only [matchHead, hs, show ((("<img").data).length) = 4 from rfl, hd, ha]
  simp

theorem isPrefixOf_false_of_head {a b : Char} (as bs : List Char) (h : ¬ b = a) :
    (a :: as).isPrefixOf (b :: bs) = false := by
  simp [List.isPrefixOf_cons₂]
  intro he
  exact absurd he.symm h

theorem replaceFirstAux_append {m r : List Char} :
    ∀ (P rest2 : List Char),
      (∀ t, t <:+ P → t ≠ [] → m.isPrefixOf (t ++ rest2) = false) →
      replaceFirstAux m r (P ++ rest2) = P ++ replaceFirstAux m r rest2 := by
  intro P
  induction P with
  | nil =>
    intro rest2 _
    rfl
  | cons x P ih =>
    intro rest2 hocc
    have h0 : m.isPrefixOf (x :: (P ++ rest2)) = false := by
      have := hocc (x :: P) (List.suffix_refl _) (by simp)
      rwa [List.cons_append] at this
    rw [List.cons_append]
    rw [show replaceFirstAux m r (x :: (P ++ rest2)) =
        if m.isPrefixOf (x :: (P ++ rest2)) then
          r ++ (x :: (P ++ rest2)).drop m.length
        else x :: replaceFirstAux m r (P ++ rest2) from rfl]
    rw [h0]
    simp only [Bool.false_eq_true, if_false]
    rw [ih rest2 (fun t ht hne => hocc t (ht.trans (List.suffix_cons x P)) hne)]
    rfl

theorem replaceFirstAux_here {m r rest2 : List Char} (hm : m ≠ []) :
    replaceFirstAux m r (m ++ rest2) = r ++ rest2 := by
  cases m with
  | nil => exact absurd rfl hm
  | cons a as =>
    rw [List.cons_append]
    rw [show replaceFirstAux (a :: as) r (a :: (as ++ rest2)) =
        if (a :: as).isPrefixOf (a :: (as ++ rest2)) then
          r ++ (a :: (as ++ rest2)).drop (a :: as).length
        else a :: replaceFirstAux (a :: as) r (as ++ rest2) from rfl]
    have hp : (a :: as).isPrefixOf (a :: (as ++ rest2)) = true := by
      rw [List.isPrefixOf_iff_prefix]
      rw [← List.cons_append]
      exact List.prefix_append _ _
    rw [hp]
    simp only [if_true]
    rw [show (a :: (as ++ rest2)) = (a :: as) ++ rest2 from rfl, List.drop_left]

theorem replaceFirstAux_position {m r : List Char} (hm : m ≠ []) (P rest2 : List Char)
    (hocc : ∀ t, t <:+ P → t ≠ [] → m.isPrefixOf (t ++ (m ++ rest2)) = false) :
    replaceFirstAux m r (P ++ (m ++ rest2)) = P ++ (r ++ rest2) := by
  rw [replaceFirstAux_append P (m ++ rest2) hocc, replaceFirstAux_here hm]

theorem drop_append_le {l1 l2 : List Char} {n : Nat} (h : n ≤ l1.length) :
    (l1 ++ l2).drop n = l1.drop n ++ l2 := by
  rw [List.drop_append_eq_append_drop, Nat.sub_eq_zero_of_le h, List.drop_zero]

theorem matchHead_before_insChars : ∀ (s2 z : List Char), (∀ x ∈ s2, x ≠ '>') → s2 ≠ [] →
    matchHead (s2 ++ insChars ++ z) = false := by
  intro s2 z hgt hne
  rcases s2 with _ | ⟨x1, _ | ⟨x2, _ | ⟨x3, _ | ⟨x4, s5⟩⟩⟩⟩
  · exact absurd rfl hne
  · apply matchHead_false_of_starts
    show startsWithCI (("<img").data) (x1 :: ' ' :: 'a' :: 'l' :: 't' :: '=' :: '"' :: '"' :: z) = false
    rw [show ("<img").data = '<' :: 'i' :: 'm' :: 'g' :: [] from rfl]
    simp only [startsWithCI]
    rw [decide_eq_false (show ¬(' '.toLower = 'i'.toLower) from by decide)]
    simp
  · apply matchHead_false_of_starts
    show startsWithCI (("<img").data) (x1 :: x2 :: ' ' :: 'a' :: 'l' :: 't' :: '=' :: '"' :: '"' :: z) = false
    rw [show ("<img").data = '<' :: 'i' :: 'm' :: 'g' :: [] from rfl]
    simp only [startsWithCI]
    rw [decide_eq_false (show ¬(' '.toLower = 'm'.toLower) from by decide)]
    simp
  · apply matchHead_false_of_starts
    show startsWithCI (("<img").data) (x1 :: x2 :: x3 :: ' ' :: 'a' :: 'l' :: 't' :: '=' :: '"' :: '"' :: z) = false
    rw [show ("<img").data = '<' :: 'i' :: 'm' :: 'g' :: [] from rfl]
    simp only [startsWithCI]
    rw [decide_eq_false (show ¬(' '.toLower = 'g'.toLower) from by decide)]
    simp
  · apply matchHead_false_of_alt
    have h5 : hasAltAhead (s5 ++ insChars ++ z) = true :=
      hasAltAhead_before_insChars s5 z (fun y hy => hgt y (by simp [hy]))
    simpa [List.append_assoc] using h5

theorem matchHead_insert_transfer {V a : List Char} (b : List Char) (hV : 4 ≤ V.length)
    (hold : matchHead (V ++ '>' :: a) = false) :
    matchHead (V ++ (insChars ++ '>' :: b)) = false := by
  have hplen : ((("<img").data)).length ≤ V.length := by
    rw [show ((("<img").data)).length = 4 from rfl]
    exact hV
  by_cases hs : startsWithCI (("<img").data) V = true
  · have hdropold : (V ++ '>' :: a).drop 4 = V.drop 4 ++ '>' :: a := drop_append_le hV
    have hgt : (((V ++ '>' :: a)).drop 4).contains '>' = true := by
      rw [hdropold]
      simp
    have hstartsold : startsWithCI (("<img").data) (V ++ '>' :: a) = true := by
      rw [startsWithCI_append_left _ hplen]
      exact hs
    have halt : hasAltAhead (V.drop 4 ++ '>' :: a) = true := by
      rcases hb : hasAltAhead (V.drop 4 ++ '>' :: a) with _ | _
      · exfalso
        unfold matchHead at hold
        rw [hstartsold, hgt, hdropold, hb] at hold
        simp at hold
      · rfl
    apply matchHead_false_of_alt
    rw [drop_append_le hV]
    have h2 := hasAlt_insert_indep (V.drop 4) a b halt
    simpa [List.append_assoc] using h2
  · apply matchHead_false_of_starts
    rw [startsWithCI_append_left _ hplen]
    simpa using hs

theorem master_skip_step
    {n : Nat} {c : Char} {rest : List Char}
    (IH : ∀ (cs : List Char), cs.length ≤ n →
      ∀ (M : List (Char × Bool)),
      (∀ t, t <:+ render M → t ≠ [] → matchHead (t ++ cs) = false) →
      (imgScan cs).foldl (fun acc m => replaceFirstAux m (fixImg m) acc) (render M ++ cs)
          = render M ++ render (mark cs) ∧
        (∀ t, t <:+ render M ++ render (mark cs) → t ≠ [] → matchHead t = false))
    (h : rest.length ≤ n)
    (M : List (Char × Bool))
    (hInv : ∀ t, t <:+ render M → t ≠ [] → matchHead (t ++ (c :: rest)) = false)
    (hmh : matchHead (c :: rest) = false)
    (hscan : imgScan (c :: rest) = imgScan rest)
    (hmark : mark (c :: rest) = (c, false) :: mark rest) :
    (imgScan (c :: rest)).foldl (fun acc m => replaceFirstAux m (fixImg m) acc)
        (render M ++ (c :: rest)) = render M ++ render (mark (c :: rest)) ∧
      (∀ t, t <:+ render M ++ render (mark (c :: rest)) → t ≠ [] → matchHead t = false) := by
  have hshape : render M ++ (c :: rest) = render (M ++ [(c, false)]) ++ rest := by
    rw [render_append]
    simp [render]
  have hshape2 : render M ++ render (mark (c :: rest))
      = render (M ++ [(c, false)]) ++ render (mark rest) := by
    rw [hmark, render_append]
    simp [render]
  have hInv2 : ∀ t, t <:+ render (M ++ [(c, false)]) → t ≠ [] →
      matchHead (t ++ rest) = false := by
    intro t ht hne
    rw [render_append] at ht
    rcases suffix_append_cases ht with h1 | ⟨s, hsM, hsne, rfl⟩
    · have h1b : t <:+ [c] := by simpa [render] using h1
      rcases List.suffix_cons_iff.1 h1b with rfl | h2
      · simpa using hmh
      · rw [List.suffix_nil.1 h2] at hne
        exact absurd rfl hne
    · have hres := hInv s hsM hsne
      have he : s ++ render [(c, false)] ++ rest = s ++ (c :: rest) := by
        simp [render]
      rw [he]
      exact hres
  obtain ⟨hfold, hnm⟩ := IH rest h (M ++ [(c, false)]) hInv2
  refine ⟨?_, ?_⟩
  · rw [hscan, hshape, hshape2, hfold]
  · intro t ht hne
    rw [hshape2] at ht
    exact hnm t ht hne

theorem fixImg_concat (X : List Char) :
    fixImg (X ++ ['>']) = X ++ (insChars ++ ['>']) := by
  unfold fixImg
  rw [show (X ++ ['>']).getLast? = some '>' from by simp]
  rw [show (X ++ ['>']).dropLast = X from by simp]
  rw [show (" alt=\"\">").data = insChars ++ ['>'] from by decide]
  simp

theorem foldl_render_master : ∀ (n : Nat) (cs : List Char), cs.length ≤ n →
    ∀ (M : List (Char × Bool)),
    (∀ t, t <:+ render M → t ≠ [] → matchHead (t ++ cs) = false) →
    (imgScan cs).foldl (fun acc m => replaceFirstAux m (fixImg m) acc) (render M ++ cs)
        = render M ++ render (mark cs) ∧
      (∀ t, t <:+ render M ++ render (mark cs) → t ≠ [] → matchHead t = false) := by
  intro n
  induction n with
  | zero =>
    intro cs h M hInv
    have hnil : cs = [] := List.length_eq_zero.1 (Nat.le_zero.1 h)
    subst hnil
    refine ⟨by simp [imgScan, imgScanF, mark, markF, render], ?_⟩
    intro t ht hne
    have h2 := hInv t (by simpa [mark, markF, render] using ht) hne
    simpa using h2
  | succ n ih =>
    intro cs h M hInv
    cases cs with
    | nil =>
      refine ⟨by simp [imgScan, imgScanF, mark, markF, render], ?_⟩
      intro t ht hne
      have h2 := hInv t (by simpa [mark, markF, render] using ht) hne
      simpa using h2
    | cons c rest =>
      simp only [List.length_cons, Nat.add_le_add_iff_right] at h
      by_cases hpfx : startsWithCI ("<img").data (c :: rest) = true
      · by_cases halt : hasAltAhead (rest.drop 3) = true
        · exact master_skip_step ih h M hInv (matchHead_false_of_alt (by simpa using halt))
            (imgScan_cons_alt hpfx halt) (mark_cons_alt hpfx halt)
        · rw [Bool.not_eq_true] at halt
          rcases hsp : splitAtGt (rest.drop 3) with _ | ⟨u, a⟩
          · exact master_skip_step ih h M hInv
              (matchHead_false_of_nogt
                (by simpa using (contains_false_iff _ '>').2 (splitAtGt_none_iff.1 hsp)))
              (imgScan_cons_none hpfx halt hsp) (mark_cons_none hpfx halt hsp)
          · obtain ⟨u0, hu0, hdrop, hmem⟩ := splitAtGt_some hsp
            have hlena : a.length ≤ n := by
              have := splitAtGt_after_len hsp
              omega
            have h4 := startsWithCI_length hpfx
            rw [show ((("<img").data)).length = 4 from rfl] at h4
            simp only [List.length_cons] at h4
            have hm4map : (c :: rest.take 3).map Char.toLower = ("<img").data := by
              have hmap := startsWithCI_map_toLower hpfx
              rw [show ((("<img").data).length) = 4 from rfl] at hmap
              rw [show (c :: rest).take 4 = c :: rest.take 3 from rfl] at hmap
              rw [hmap]
              decide
            have hm4gt : ∀ x ∈ c :: rest.take 3, x ≠ '>' := by
              intro x hx hxgt
              subst hxgt
              have h5 : ('>').toLower ∈ ((c :: rest.take 3).map Char.toLower) :=
                List.mem_map_of_mem _ hx
              rw [hm4map] at h5
              revert h5
              decide
            have haltm : hasAltAhead (u0 ++ ['>']) = false := by
              rw [hdrop] at halt
              have h2 := hasAltAhead_tail_indep u0 hmem a []
              rw [halt] at h2
              exact h2.symm
            have hcs : c :: rest = (c :: rest.take 3) ++ u0 ++ '>' :: a := by
              conv_lhs => rw [show rest = rest.take 3 ++ rest.drop 3
                from (List.take_append_drop 3 rest).symm]
              rw [hdrop]
              simp [List.append_assoc]
            have hdl : u.dropLast = u0 := by
              rw [hu0]
              simp
            have hmne : (c :: rest.take 3) ++ u ≠ [] := by simp
            have hfix : fixImg ((c :: rest.take 3) ++ u)
                = ((c :: rest.take 3) ++ u0) ++ (insChars ++ ['>']) := by
              have hshape : (c :: rest.take 3) ++ u = ((c :: rest.take 3) ++ u0) ++ ['>'] := by
                rw [hu0]
                simp [List.append_assoc]
              rw [hshape, fixImg_concat]
            have hca : (c :: rest) = ((c :: rest.take 3) ++ u) ++ a := by
              rw [hcs, hu0]
              simp [List.append_assoc]
            have hocc : ∀ t, t <:+ render M → t ≠ [] →
                ((c :: rest.take 3) ++ u).isPrefixOf
                  (t ++ (((c :: rest.take 3) ++ u) ++ a)) = false := by
              intro t ht hne
              rcases hb : ((c :: rest.take 3) ++ u).isPrefixOf
                  (t ++ (((c :: rest.take 3) ++ u) ++ a)) with _ | _
              · rfl
              · exfalso
                obtain ⟨w2, hw2⟩ := List.isPrefixOf_iff_prefix.1 hb
                have hmh := matchHead_of_shape w2 hm4map hmem haltm
                have hfalse := hInv t ht hne
                rw [hca] at hfalse
                rw [← hw2] at hfalse
                rw [show (c :: rest.take 3) ++ u = (c :: rest.take 3) ++ u0 ++ ['>']
                  from by rw [hu0]; simp [List.append_assoc]] at hfalse
                rw [hmh] at hfalse
                exact absurd hfalse (by simp)
            have hstep : replaceFirstAux ((c :: rest.take 3) ++ u)
                (fixImg ((c :: rest.take 3) ++ u)) (render M ++ (c :: rest))
                = render M ++ (fixImg ((c :: rest.take 3) ++ u) ++ a) := by
              rw [hca]
              exact replaceFirstAux_position hmne (render M) a hocc
            have hrenderM2 : render (M ++ (((c :: rest.take 3) ++ u0).map fun x => (x, false))
                  ++ [('>', true)])
                = render M ++ (((c :: rest.take 3) ++ u0) ++ (insChars ++ ['>'])) := by
              rw [render_append, render_append, render_unflagged_map]
              simp [render, List.append_assoc]
            have hInv2 : ∀ t, t <:+ render (M ++ (((c :: rest.take 3) ++ u0).map
                  fun x => (x, false)) ++ [('>', true)]) →
                t ≠ [] → matchHead (t ++ a) = false := by
              intro t ht hne
              rw [hrenderM2] at ht
              rcases suffix_append_cases ht with h1 | ⟨s, hsM, hsne, rfl⟩
              · rcases suffix_append_cases h1 with h2 | ⟨s2, hs2, hs2ne, rfl⟩
                · cases t with
                  | nil => exact absurd rfl hne
                  | cons x t2 =>
                    have hx : x ∈ insChars ++ ['>'] := h2.subset (by simp)
                    have hxlt : ¬ x.toLower = ('<').toLower := by
                      have hall : ∀ y ∈ insChars ++ ['>'], ¬ y.toLower = ('<').toLower := by
                        decide
                      exact hall x hx
                    apply matchHead_false_of_starts
                    rw [show ("<img").data = '<' :: 'i' :: 'm' :: 'g' :: [] from rfl]
                    rw [show (x :: t2) ++ a = x :: (t2 ++ a) from rfl]
                    exact startsWithCI_cons_false _ _ hxlt
                · have hs2gt : ∀ x ∈ s2, x ≠ '>' := by
                    intro x hx
                    rcases List.mem_append.1 (hs2.subset hx) with h3 | h3
                    · exact hm4gt x h3
                    · exact hmem x h3
                  have h6 := matchHead_before_insChars s2 ('>' :: a) hs2gt hs2ne
                  simpa [List.append_assoc] using h6
              · have hVlen : 4 ≤ (s ++ ((c :: rest.take 3) ++ u0)).length := by
                  simp only [List.length_append, List.length_cons, List.length_take]
                  omega
                have hold : matchHead ((s ++ ((c :: rest.take 3) ++ u0)) ++ '>' :: a)
                    = false := by
                  have h7 := hInv s hsM hsne
                  rw [hcs] at h7
                  simpa [List.append_assoc] using h7
                have hnew := matchHead_insert_transfer a hVlen hold
                simpa [List.append_assoc] using hnew
            obtain ⟨hfold, hnm⟩ := ih a hlena
              (M ++ (((c :: rest.take 3) ++ u0).map fun x => (x, false)) ++ [('>', true)]) hInv2
            have hshape1 : render M ++ (fixImg ((c :: rest.take 3) ++ u) ++ a)
                = render (M ++ (((c :: rest.take 3) ++ u0).map fun x => (x, false))
                  ++ [('>', true)]) ++ a := by
              rw [hrenderM2, hfix]
              simp [List.append_assoc]
            have hshape2 : render (M ++ (((c :: rest.take 3) ++ u0).map fun x => (x, false))
                  ++ [('>', true)]) ++ render (mark a)
                = render M ++ render (mark (c :: rest)) := by
              rw [hrenderM2, mark_cons_match hpfx halt hsp, hdl, render_append,
                render_unflagged_map]
              simp [render, List.append_assoc]
            refine ⟨?_, ?_⟩
            · rw [imgScan_cons_match hpfx halt hsp]
              simp only [List.foldl_cons]
              rw [hstep, hshape1, hfold, hshape2]
            · intro t ht hne
              rw [← hshape2] at ht
              exact hnm t ht hne
      · rw [Bool.not_eq_true] at hpfx
        exact master_skip_step ih h M hInv (matchHead_false_of_starts hpfx)
          (imgScan_cons_no hpfx) (mark_cons_no hpfx)

theorem foldl_eq_render_mark (cs : List Char) :
    (imgScan cs).foldl (fun acc m => replaceFirstAux m (fixImg m) acc) cs
      = render (mark cs) := by
  have hInv : ∀ t, t <:+ render ([] : List (Char × Bool)) → t ≠ [] →
      matchHead (t ++ cs) = false := by
    intro t ht hne
    have ht2 : t = [] := List.suffix_nil.1 (by simpa [render] using ht)
    exact absurd ht2 hne
  have h := (foldl_render_master cs.length cs (Nat.le_refl _) [] hInv).1
  simpa [render] using h

theorem rendered_no_match (cs : List Char) :
    ∀ t, t <:+ render (mark cs) → t ≠ [] → matchHead t = false := by
  intro t ht hne
  have hInv : ∀ t2, t2 <:+ render ([] : List (Char × Bool)) → t2 ≠ [] →
      matchHead (t2 ++ cs) = false := by
    intro t2 ht2 hne2
    have ht3 : t2 = [] := List.suffix_nil.1 (by simpa [render] using ht2)
    exact absurd ht3 hne2
  have h := (foldl_render_master cs.length cs (Nat.le_refl _) [] hInv).2
  refine h t ?_ hne
  simpa [render] using ht

theorem imgScan_nil_of_no_match : ∀ (n : Nat) (ds : List Char), ds.length ≤ n →
    (∀ t, t <:+ ds → t ≠ [] → matchHead t = false) → imgScan ds = [] := by
  intro n
  induction n with
  | zero =>
    intro ds h _
    rw [List.length_eq_zero.1 (Nat.le_zero.1 h)]
    rfl
  | succ n ih =>
    intro ds h hnm
    cases ds with
    | nil => rfl
    | cons c rest =>
      simp only [List.length_cons, Nat.add_le_add_iff_right] at h
      have hrec : imgScan rest = [] :=
        ih rest h (fun t ht hne => hnm t (ht.trans (List.suffix_cons c rest)) hne)
      have hself := hnm (c :: rest) (List.suffix_refl _) (by simp)
      by_cases hpfx : startsWithCI ("<img").data (c :: rest) = true
      · by_cases halt : hasAltAhead (rest.drop 3) = true
        · rw [imgScan_cons_alt hpfx halt, hrec]
        · rw [Bool.not_eq_true] at halt
          rcases hsp : splitAtGt (rest.drop 3) with _ | ⟨u, a⟩
          · rw [imgScan_cons_none hpfx halt hsp, hrec]
          · exfalso
            obtain ⟨u0, hu0, hdrop, hmem⟩ := splitAtGt_some hsp
            have hgt : ((c :: rest).drop 4).contains '>' = true := by
              show (rest.drop 3).contains '>' = true
              rw [hdrop]
              simp
            have htrue : matchHead (c :: rest) = true := by
              unfold matchHead
              rw [hpfx, hgt]
              rw [show hasAltAhead ((c :: rest).drop 4) = false from halt]
              rfl
            rw [hself] at htrue
            exact absurd htrue (by simp)
      · rw [Bool.not_eq_true] at hpfx
        rw [imgScan_cons_no hpfx, hrec]

theorem replaceFirstAux_eq_split (target repl : List Char) :
    ∀ s, replaceFirstAux target repl s
      = (match splitFirst target s with
        | some (pre, after) => pre ++ (repl ++ after)
        | none => s) := by
  intro s
  induction s with
  | nil => rfl
  | cons c rest ih =>
    simp only [replaceFirstAux, splitFirst]
    by_cases hp : target.isPrefixOf (c :: rest) = true
    · rw [if_pos hp, if_pos hp]
      rfl
    · rw [if_neg hp, if_neg hp, ih]
      rcases hs : splitFirst target rest with _ | ⟨pre, after⟩
      · rfl
      · rfl

theorem replaceFirst_no_dollar {target repl : List Char} (ht : target ≠ [])
    (hr : '$' ∉ repl) (s : List Char) :
    replaceFirst target repl s = replaceFirstAux target repl s := by
  have hne : ¬ target.isEmpty = true := by
    simp [List.isEmpty_iff, ht]
  rw [replaceFirst, if_neg hne, replaceFirstAux_eq_split]
  rcases hs : splitFirst target s with _ | ⟨pre, after⟩
  · rfl
  · show pre ++ getSubstitution target pre after repl ++ after = pre ++ (repl ++ after)
    rw [getSubstitution_no_dollar _ _ _ repl hr, List.append_assoc]

theorem imgScan_mem_subset : ∀ (n : Nat) (cs : List Char), cs.length ≤ n →
    ∀ m ∈ imgScan cs, ∀ x ∈ m, x ∈ cs := by
  intro n
  induction n with
  | zero =>
    intro cs h m hm
    have hnil : cs = [] := List.length_eq_zero.1 (Nat.le_zero.1 h)
    subst hnil
    simp [imgScan, imgScanF] at hm
  | succ n ih =>
    intro cs h m hm
    cases cs with
    | nil => simp [imgScan, imgScanF] at hm
    | cons c rest =>
      simp only [List.length_cons, Nat.add_le_add_iff_right] at h
      by_cases hpfx : startsWithCI ("<img").data (c :: rest) = true
      · by_cases halt : hasAltAhead (rest.drop 3) = true
        · rw [imgScan_cons_alt hpfx halt] at hm
          exact fun x hx => List.mem_cons_of_mem c (ih rest h m hm x hx)
        · rw [Bool.not_eq_true] at halt
          rcases hsp : splitAtGt (rest.drop 3) with _ | ⟨u, a⟩
          · rw [imgScan_cons_none hpfx halt hsp] at hm
            exact fun x hx => List.mem_cons_of_mem c (ih rest h m hm x hx)
          · obtain ⟨u0, hu0, hdrop, hmem⟩ := splitAtGt_some hsp
            have hcs : c :: rest = ((c :: rest.take 3) ++ u) ++ a := by
              rw [hu0]
              conv_lhs => rw [show rest = rest.take 3 ++ rest.drop 3
                from (List.take_append_drop 3 rest).symm]
              rw [hdrop]
              simp [List.append_assoc]
            rw [imgScan_cons_match hpfx halt hsp] at hm
            rcases List.mem_cons.1 hm with rfl | hm2
            · intro x hx
              rw [hcs]
              exact List.mem_append_left _ hx
            · have hlena : a.length ≤ n := by
                have := splitAtGt_after_len hsp
                omega
              intro x hx
              rw [hcs]
              exact List.mem_append_right _ (ih a hlena m hm2 x hx)
      · rw [Bool.not_eq_true] at hpfx
        rw [imgScan_cons_no hpfx] at hm
        exact fun x hx => List.mem_cons_of_mem c (ih rest h m hm x hx)

theorem fixImg_no_dollar {m : List Char} (h : '$' ∉ m) : '$' ∉ fixImg m := by
  unfold fixImg
  rcases hl : m.getLast? with _ | c
  · exact h
  · show '$' ∉ (if c = '>' then m.dropLast ++ (" alt=\"\">").data else m)
    by_cases hc : c = '>'
    · rw [if_pos hc]
      intro hmem
      rcases List.mem_append.1 hmem with h1 | h1
      · exact h ((List.dropLast_sublist m).subset h1)
      · revert h1
        decide
    · rw [if_neg hc]
      exact h

theorem foldl_congr_mem {f g : List Char → List Char → List Char} :
    ∀ (ms : List (List Char)) (a : List Char),
      (∀ m ∈ ms, ∀ acc, f acc m = g acc m) →
      ms.foldl f a = ms.foldl g a := by
  intro ms
  induction ms with
  | nil =>
    intro a _
    rfl
  | cons m ms ih =>
    intro a h
    rw [List.foldl_cons, List.foldl_cons, h m (by simp) a]
    exact ih _ (fun m2 hm2 acc => h m2 (by simp [hm2]) acc)

/-- On `$`-free input every replacement string `fixImg m` is `$`-free, so the
real `String.replace` fold agrees with the literal-splice fold. -/
theorem ensureImageAlt_fold_no_dollar {cs : List Char} (h : '$' ∉ cs) :
    (imgScan cs).foldl (fun acc m => replaceFirst m (fixImg m) acc) cs
      = (imgScan cs).foldl (fun acc m => replaceFirstAux m (fixImg m) acc) cs := by
  apply foldl_congr_mem
  intro m hm acc
  have hmne : m ≠ [] := by
    obtain ⟨m4, u0, rfl, hmap, -, -⟩ := imgScan_shape hm
    simp
  have hdm : '$' ∉ m :=
    fun hx => h (imgScan_mem_subset cs.length cs (Nat.le_refl _) m hm '$' hx)
  exact replaceFirst_no_dollar hmne (fixImg_no_dollar hdm) acc

theorem ensureImageAlt_idem (html : String) (w : List String) (hd : '$' ∉ html.data) :
    ensureImageAlt (ensureImageAlt html w).1 (ensureImageAlt html w).2
      = ensureImageAlt html w := by
  by_cases hms : imgScan html.data = []
  · simp [ensureImageAlt, hms]
  · have h2 : imgScan ((imgScan html.data).foldl
        (fun acc m => replaceFirst m (fixImg m) acc) html.data) = [] := by
      rw [ensureImageAlt_fold_no_dollar hd, foldl_eq_render_mark]
      exact imgScan_nil_of_no_match (render (mark html.data)).length _
        (Nat.le_refl _) (rendered_no_match html.data)
    simp [ensureImageAlt, hms, h2]

theorem hasOpenTag_of_suffix {tag s t : List Char} (h : hasOpenTag tag t = true)
    (hts : t <:+ s) : hasOpenTag tag s = true := by
  rw [hasOpenTag_iff] at h ⊢
  obtain ⟨t2, ht2, hs, hc⟩ := h
  exact ⟨t2, ht2.trans hts, hs, hc⟩

theorem hasOpenTag_title_of_front (u : List Char) :
    hasOpenTag (("<title").data) ((("<title>").data) ++ u) = true := by
  rw [hasOpenTag_iff]
  refine ⟨(("<title>").data) ++ u, List.suffix_refl _, ?_, ?_⟩
  · rw [startsWithCI_append_left _ (by decide)]
    decide
  · rw [show ((("<title").data)).length = 6 from rfl]
    rw [drop_append_le (by decide)]
    rw [show ((("<title>").data)).drop 6 = ['>'] from rfl]
    simp

theorem ensureTitle_idem (html : String) (title : Option String) :
    ensureTitle (ensureTitle html title) title = ensureTitle html title := by
  rcases title with _ | t
  · rfl
  · by_cases ht0 : t = ""
    · simp [ensureTitle, ht0]
    · by_cases htitle : hasOpenTag (("<title").data) html.data = true
      · simp [ensureTitle, ht0, htitle]
      · by_cases hhead : hasOpenTag (("<head").data) html.data = true
        · obtain ⟨pre, h5, grp, post, hcs, hci, hgrp, hfirst, hres⟩ :=
            replaceHeadAux_decomp ((escapeHtml t).data) html.data [] hhead
          have hR : ensureTitle html (some t)
              = String.mk (replaceHeadAux ((escapeHtml t).data) [] html.data) := by
            simp [ensureTitle, ht0, htitle, hhead]
          rw [hR]
          have htitle2 : hasOpenTag (("<title").data)
              (replaceHeadAux ((escapeHtml t).data) [] html.data) = true := by
            rw [hres]
            apply hasOpenTag_of_suffix
              (hasOpenTag_title_of_front
                (getSubstitution1 (h5 ++ grp ++ ['>']) ([] ++ pre) post grp
                  ((escapeHtml t).data ++ (("</title>").data)) ++ post))
            exact ⟨pre ++ (("<head").data) ++ grp ++ ['>'], by simp [List.append_assoc]⟩
          simp [ensureTitle, ht0, htitle2]
        · have hR : ensureTitle html (some t)
              = "<title>" ++ escapeHtml t ++ "</title>" ++ html := by
            simp [ensureTitle, ht0, htitle, hhead]
          rw [hR]
          have htitle2 : hasOpenTag (("<title").data)
              (("<title>" ++ escapeHtml t ++ "</title>" ++ html) : String).data = true := by
            rw [show (("<title>" ++ escapeHtml t ++ "</title>" ++ html) : String).data
                = (("<title>").data) ++ ((escapeHtml t).data ++ ((("</title>").data)
                  ++ html.data)) from by simp]
            exact hasOpenTag_title_of_front _
          simp only [ensureTitle]
          rw [if_neg ht0, if_pos htitle2]

/-- Claim C9 (corrected): `ensureTitle` is idempotent — both insertion
branches put a literal `<title>` into the output, which the second call's
existence check finds; `ensureImageAlt` is idempotent on `$`-free html but
not in general: a `$`-substitution pattern inside a matched img tag makes
the first pass emit fresh matchable `<img` text (see the counterexample). -/
theorem claim_C9_corrected (html : String) (title : Option String) (w : List String) :
    ensureTitle (ensureTitle html title) title = ensureTitle html title ∧
    ('$' ∉ html.data →
      ensureImageAlt (ensureImageAlt html w).1 (ensureImageAlt html w).2
        = ensureImageAlt html w) :=
  ⟨ensureTitle_idem html title, fun hd => ensureImageAlt_idem html w hd⟩

theorem claim_C9_witness :
    ('$' : Char) ∉ ("<img src=x><p>t</p>" : String).data ∧
    ensureTitle (ensureTitle "<img src=x><p>t</p>" (some "T")) (some "T")
      = ensureTitle "<img src=x><p>t</p>" (some "T") ∧
    ensureImageAlt (ensureImageAlt "<img src=x><p>t</p>" []).1
        (ensureImageAlt "<img src=x><p>t</p>" []).2
      = ensureImageAlt "<img src=x><p>t</p>" [] := by
  refine ⟨by decide, ?_, ?_⟩
  · exact (claim_C9_corrected "<img src=x><p>t</p>" (some "T") []).1
  · exact (claim_C9_corrected "<img src=x><p>t</p>" (some "T") []).2 (by decide)

/-- Claim C9 counterexample: on `<img a=$&>` the first pass substitutes `$&`
by the whole matched tag, producing `<img a=<img a=$&> alt="">`; the second
pass matches again, changing the html and appending a second warning. -/
theorem claim_C9_counterexample :
    ensureImageAlt (ensureImageAlt dollarAmpImg []).1 (ensureImageAlt dollarAmpImg []).2
      ≠ ensureImageAlt dollarAmpImg [] := by
  decide

theorem startsWithCI_render : ∀ (q : List Char), (∀ x ∈ q, ¬ x.toLower = ' ') →
    ∀ (l : List (Char × Bool)), startsWithCI q (render l) = true →
    startsWithCI q (l.map Prod.fst) = true := by
  intro q
  induction q with
  | nil =>
    intro _ l _
    exact startsWithCI_nil _
  | cons a q2 ih =>
    intro hq l h
    cases l with
    | nil => simpa [render, startsWithCI] using h
    | cons p l2 =>
      rcases p with ⟨c, b⟩
      cases b with
      | false =>
        rw [render_cons_false] at h
        simp only [startsWithCI, Bool.and_eq_true] at h
        show startsWithCI (a :: q2) (c :: l2.map Prod.fst) = true
        simp only [startsWithCI, Bool.and_eq_true]
        exact ⟨h.1, ih (fun x hx => hq x (by simp [hx])) l2 h.2⟩
      | true =>
        exfalso
        rw [render_cons_true] at h
        have hsf : startsWithCI (a :: q2)
            (' ' :: ('a' :: 'l' :: 't' :: '=' :: '"' :: '"' :: (c :: render l2))) = false := by
          apply startsWithCI_cons_false
          intro he
          exact hq a (by simp) (by rw [← he]; decide)
        rw [show insChars ++ c :: render l2
          = ' ' :: ('a' :: 'l' :: 't' :: '=' :: '"' :: '"' :: (c :: render l2)) from rfl] at h
        rw [hsf] at h
        exact absurd h (by simp)

theorem containsCI_ins_block (tag : List Char) (Y : List Char) :
    containsCI ('<' :: tag) (insChars ++ '>' :: Y) = containsCI ('<' :: tag) Y := by
  have hk : ∀ (y : Char) (Z : List Char), ¬ y.toLower = ('<').toLower →
      startsWithCI ('<' :: tag) (y :: Z) = false :=
    fun y Z hy => startsWithCI_cons_false tag Z hy
  show containsCI ('<' :: tag)
    (' ' :: 'a' :: 'l' :: 't' :: '=' :: '"' :: '"' :: '>' :: Y) = containsCI ('<' :: tag) Y
  simp only [containsCI]
  rw [hk ' ' _ (by decide), hk 'a' _ (by decide), hk 'l' _ (by decide), hk 't' _ (by decide),
    hk '=' _ (by decide), hk '"' _ (by decide), hk '"' _ (by decide), hk '>' _ (by decide)]
  simp

theorem containsCI_render_mark (tag : List Char)
    (hsp : ∀ x ∈ '<' :: tag, ¬ x.toLower = ' ') :
    ∀ M : List (Char × Bool), (∀ p ∈ M, p.2 = true → p.1 = '>') →
      containsCI ('<' :: tag) (M.map Prod.fst) = false →
      containsCI ('<' :: tag) (render M) = false := by
  intro M
  induction M with
  | nil =>
    intro _ h
    simpa [render] using h
  | cons p l ih =>
    intro hflag horig
    rcases p with ⟨c, b⟩
    have horig2 : containsCI ('<' :: tag) (c :: l.map Prod.fst) = false := horig
    simp only [containsCI, Bool.or_eq_false_iff] at horig2
    have hrec := ih (fun p2 hp2 => hflag p2 (by simp [hp2])) horig2.2
    cases b with
    | false =>
      rw [render_cons_false]
      simp only [containsCI, Bool.or_eq_false_iff]
      refine ⟨?_, hrec⟩
      rcases hb : startsWithCI ('<' :: tag) (c :: render l) with _ | _
      · rfl
      · exfalso
        have h2 := startsWithCI_render ('<' :: tag) hsp ((c, false) :: l) (by
          rw [render_cons_false]
          exact hb)
        have h3 : startsWithCI ('<' :: tag) (c :: l.map Prod.fst) = true := h2
        rw [horig2.1] at h3
        exact absurd h3 (by simp)
    | true =>
      have hc : c = '>' := hflag (c, true) (by simp) rfl
      subst hc
      rw [render_cons_true, containsCI_ins_block]
      exact hrec

theorem mark_map_fst : ∀ (n : Nat) (cs : List Char), cs.length ≤ n →
    (mark cs).map Prod.fst = cs := by
  intro n
  induction n with
  | zero =>
    intro cs h
    rw [List.length_eq_zero.1 (Nat.le_zero.1 h)]
    rfl
  | succ n ih =>
    intro cs h
    cases cs with
    | nil => rfl
    | cons c rest =>
      simp only [List.length_cons, Nat.add_le_add_iff_right] at h
      by_cases hpfx : startsWithCI ("<img").data (c :: rest) = true
      · by_cases halt : hasAltAhead (rest.drop 3) = true
        · rw [mark_cons_alt hpfx halt]
          rw [show ((c, false) :: mark rest).map Prod.fst
            = c :: (mark rest).map Prod.fst from rfl]
          rw [ih rest h]
        · rw [Bool.not_eq_true] at halt
          rcases hsp : splitAtGt (rest.drop 3) with _ | ⟨u, a⟩
          · rw [mark_cons_none hpfx halt hsp]
            rw [show ((c, false) :: mark rest).map Prod.fst
              = c :: (mark rest).map Prod.fst from rfl]
            rw [ih rest h]
          · obtain ⟨u0, hu0, hdrop, hmem⟩ := splitAtGt_some hsp
            have hlena : a.length ≤ n := by
              have := splitAtGt_after_len hsp
              omega
            rw [mark_cons_match hpfx halt hsp]
            rw [List.map_append, List.map_map]
            rw [show ((('>', true) :: mark a).map Prod.fst)
              = '>' :: (mark a).map Prod.fst from rfl]
            rw [ih a hlena]
            rw [show (Prod.fst ∘ fun x : Char => (x, false)) = id from rfl, List.map_id]
            rw [show u.dropLast = u0 from by rw [hu0]; simp]
            conv_rhs => rw [show rest = rest.take 3 ++ rest.drop 3
              from (List.take_append_drop 3 rest).symm, hdrop]
            simp [List.append_assoc]
      · rw [Bool.not_eq_true] at hpfx
        rw [mark_cons_no hpfx]
        rw [show ((c, false) :: mark rest).map Prod.fst
          = c :: (mark rest).map Prod.fst from rfl]
        rw [ih rest h]

/-- Claim C7 (corrected): `ensureImageAlt` leaves the html unchanged with no
warning when no `<img` tag lacking an `alt` matches; otherwise it appends
exactly one warning regardless of the number of matches; every match is an
`<img` tag (case-insensitive) ending at its closing `>` with no `alt`
attribute ahead; the marking of the input flags only closing `>` characters
and projects back to the input; and on `$`-free html the output is exactly
the input with ` alt=""` inserted in front of every flagged closing `>` —
but not in general, since `String.replace` expands `$`-substitution
patterns in the replacement (see the counterexample). -/
theorem claim_C7_corrected (html : String) (warnings : List String) :
    (imgScan html.data = [] →
      ensureImageAlt html warnings = (html, warnings)) ∧
    (imgScan html.data ≠ [] →
      (ensureImageAlt html warnings).2 = warnings ++ [imageAltWarning]) ∧
    (∀ m ∈ imgScan html.data,
      m.getLast? = some '>' ∧ fixImg m = m.dropLast ++ (" alt=\"\">").data) ∧
    (∀ m ∈ imgScan html.data,
      startsWithCI (("<img").data) m = true ∧ hasAltAhead (m.drop 4) = false) ∧
    (mark html.data).map Prod.fst = html.data ∧
    (∀ p ∈ mark html.data, p.2 = true → p.1 = '>') ∧
    ('$' ∉ html.data →
      ((ensureImageAlt html warnings).1).data = render (mark html.data)) := by
  refine ⟨?_, ?_, ?_, ?_, ?_, ?_, ?_⟩
  · intro h
    simp [ensureImageAlt, h]
  · intro h
    simp [ensureImageAlt, h]
  · intro m hm
    obtain ⟨m4, u0, rfl, hmap, hmem, -⟩ := imgScan_shape hm
    constructor
    · exact List.getLast?_concat _
    · show fixImg ((m4 ++ u0) ++ ['>']) = _
      simp only [fixImg, List.getLast?_concat]
      simp
  · intro m hm
    obtain ⟨m4, u0, rfl, hmap, hmem, halt⟩ := imgScan_shape hm
    have hlen : m4.length = 4 := by
      have := congrArg List.length hmap
      simpa using this
    constructor
    · rw [List.append_assoc, startsWithCI_append_left _ (by rw [hlen]; decide)]
      have hci : m4.map Char.toLower = (("<img").data).map Char.toLower := by
        rw [hmap]
        decide
      rw [startsWithCI_congr hci (("<img").data)]
      decide
    · rw [List.append_assoc]
      rw [show (4 : Nat) = m4.length from hlen.symm, List.drop_left]
      exact halt
  · exact mark_map_fst (html.data).length html.data (Nat.le_refl _)
  · exact mark_flags (html.data).length html.data (Nat.le_refl _)
  · intro hd
    have h1 : ((ensureImageAlt html warnings).1).data
        = (imgScan html.data).foldl
            (fun acc m => replaceFirst m (fixImg m) acc) html.data := by
      by_cases hms : imgScan html.data = []
      · simp [ensureImageAlt, hms]
      · simp [ensureImageAlt, hms]
    rw [h1, ensureImageAlt_fold_no_dollar hd, foldl_eq_render_mark]

theorem claim_C7_witness :
    imgScan ("<img src=x><p>t</p>").data ≠ [] ∧
    (ensureImageAlt "<img src=x><p>t</p>" []).2 = [] ++ [imageAltWarning] ∧
    ensureImageAlt "<img alt=b>" ["w"] = ("<img alt=b>", ["w"]) ∧
    ((ensureImageAlt "<img src=x><p>t</p>" []).1).data
      = render (mark ("<img src=x><p>t</p>").data) := by
  refine ⟨by decide, ?_, ?_, ?_⟩
  · exact (claim_C7_corrected "<img src=x><p>t</p>" []).2.1 (by decide)
  · exact (claim_C7_corrected "<img alt=b>" ["w"]).1 (by decide)
  · exact (claim_C7_corrected "<img src=x><p>t</p>" []).2.2.2.2.2.2 (by decide)

/-- Claim C7 counterexample: on `<img a=$&>` the replacement string built for
the match contains `$&`, which `String.replace` substitutes by the matched
tag itself — the result is not the input with ` alt=""` inserted before the
closing `>`. -/
theorem claim_C7_counterexample :
    (ensureImageAlt dollarAmpImg []).1 = "<img a=<img a=$&> alt=\"\">" ∧
    (ensureImageAlt dollarAmpImg []).1 ≠ "<img a=$& alt=\"\">" := by
  decide

theorem ensureImageAlt_preserves_absence (tag : List Char)
    (hsp : ∀ x ∈ '<' :: tag, ¬ x.toLower = ' ')
    (html : String) (w : List String) (hd : '$' ∉ html.data)
    (h : containsCI ('<' :: tag) html.data = false) :
    containsCI ('<' :: tag) (((ensureImageAlt html w).1)).data = false := by
  by_cases hms : imgScan html.data = []
  · have he : (ensureImageAlt html w) = (html, w) := by simp [ensureImageAlt, hms]
    rw [he]
    exact h
  · have h1 : ((ensureImageAlt html w).1).data
        = (imgScan html.data).foldl (fun acc m => replaceFirst m (fixImg m) acc) html.data := by
      simp [ensureImageAlt, hms]
    rw [h1, ensureImageAlt_fold_no_dollar hd, foldl_eq_render_mark]
    apply containsCI_render_mark tag hsp (mark html.data)
      (mark_flags (html.data).length (html.data) (Nat.le_refl _))
    rw [mark_map_fst (html.data).length (html.data) (Nat.le_refl _)]
    exact h

theorem starts_false_in_zone (p0 : Char) (ps : List Char) {zone : List Char} (R : List Char)
    (hz : ∀ x ∈ zone, ¬ x.toLower = p0.toLower) :
    ∀ s, s <:+ zone → s ≠ [] → startsWithCI (p0 :: ps) (s ++ R) = false := by
  intro s hs hne
  cases s with
  | nil => exact absurd rfl hne
  | cons x s2 =>
    rw [show ((x :: s2) ++ R) = x :: (s2 ++ R) from rfl]
    exact startsWithCI_cons_false _ _ (hz x (hs.subset (by simp)))

theorem title_block_starts_false (b : Char) (tag2 : List Char)
    (hb1 : ¬ b.toLower = ('t').toLower)
    (hb2 : ¬ b.toLower = ('/').toLower)
    (esc post : List Char)
    (hesc : ∀ x ∈ esc, x ≠ '<')
    (hpost : ∀ t, t <:+ post → startsWithCI ('<' :: b :: tag2) t = false) :
    ∀ t, t <:+ (("<title>").data) ++ (esc ++ ((("</title>").data) ++ post)) →
      startsWithCI ('<' :: b :: tag2) t = false := by
  intro t ht
  rcases suffix_append_cases ht with h1 | ⟨s, hs, hsne, rfl⟩
  · rcases suffix_append_cases h1 with h2 | ⟨s2, hs2, hs2ne, rfl⟩
    · rcases suffix_append_cases h2 with h3 | ⟨s3, hs3, hs3ne, rfl⟩
      · exact hpost t h3
      · rcases List.suffix_cons_iff.1 (show s3 <:+ '<' :: ('/' :: 't' :: 'i' :: 't' :: 'l'
            :: 'e' :: '>' :: []) from hs3) with rfl | hs3b
        · show startsWithCI ('<' :: b :: tag2)
            ('<' :: '/' :: 't' :: 'i' :: 't' :: 'l' :: 'e' :: '>' :: post) = false
          simp only [startsWithCI]
          rw [decide_eq_false (show ¬(('/').toLower = b.toLower) from fun he => hb2 he.symm)]
          simp
        · exact starts_false_in_zone '<' (b :: tag2) post (by decide) s3 hs3b hs3ne
    · exact starts_false_in_zone '<' (b :: tag2) ((("</title>").data) ++ post)
        (fun x hx he => hesc x hx ((toLower_eq_lt_iff x).1
          (he.trans (by decide)))) s2 hs2 hs2ne
  · rcases List.suffix_cons_iff.1 (show s <:+ '<' :: ('t' :: 'i' :: 't' :: 'l'
        :: 'e' :: '>' :: []) from hs) with rfl | hsb
    · show startsWithCI ('<' :: b :: tag2)
        ('<' :: 't' :: 'i' :: 't' :: 'l' :: 'e' :: '>' :: (esc ++ ((("</title>").data) ++ post)))
        = false
      simp only [startsWithCI]
      rw [decide_eq_false (show ¬(('t').toLower = b.toLower) from fun he => hb1 he.symm)]
      simp
    · exact starts_false_in_zone '<' (b :: tag2) (esc ++ ((("</title>").data) ++ post))
        (by decide) s hsb hsne

theorem ensureTitle_preserves_absence (b : Char) (tag2 : List Char) (title : Option String)
    (hgt : ∀ x ∈ '<' :: b :: tag2, ¬ x.toLower = ('>').toLower)
    (hb1 : ¬ b.toLower = ('t').toLower)
    (hb2 : ¬ b.toLower = ('/').toLower)
    (X : String)
    (hdol : ∀ t2, title = some t2 → '$' ∉ t2.data)
    (h : containsCI ('<' :: b :: tag2) X.data = false) :
    containsCI ('<' :: b :: tag2) (ensureTitle X title).data = false := by
  rcases title with _ | ti
  · exact h
  · by_cases ht0 : ti = ""
    · simpa [ensureTitle, ht0] using h
    · by_cases htit : hasOpenTag (("<title").data) X.data = true
      · simpa [ensureTitle, ht0, htit] using h
      · by_cases hhead : hasOpenTag (("<head").data) X.data = true
        · obtain ⟨pre, h5, grp, post, hcs, hciH, hgrp, hfirst, hres⟩ :=
            replaceHeadAux_decomp_lit ((escapeHtml ti).data)
              (escapeHtml_no_dollar ti (hdol ti rfl)) X.data hhead
          have hout : (ensureTitle X (some ti)).data
              = replaceHeadAux ((escapeHtml ti).data) [] X.data := by
            simp [ensureTitle, ht0, htit, hhead]
          rw [hout]
          have hO : replaceHeadAux ((escapeHtml ti).data) [] X.data
              = (pre ++ (("<head").data) ++ grp)
                ++ ('>' :: ((("<title>").data) ++ (((escapeHtml ti).data)
                  ++ ((("</title>").data) ++ post)))) := by
            rw [hres]
            simp [List.append_assoc]
          rw [hO]
          rw [containsCI_eq_false_iff]
          intro t ht
          rcases suffix_append_cases ht with h1 | ⟨w, hw, hwne, rfl⟩
          · rcases List.suffix_cons_iff.1 h1 with rfl | h2
            · exact startsWithCI_cons_false _ _ (by decide)
            · have hpost : ∀ t2, t2 <:+ post →
                  startsWithCI ('<' :: b :: tag2) t2 = false := by
                intro t2 ht2
                refine containsCI_eq_false_iff.1 h t2 (ht2.trans ?_)
                refine ⟨pre ++ h5 ++ grp ++ ['>'], ?_⟩
                rw [hcs]
                simp [List.append_assoc]
              exact title_block_starts_false b tag2 hb1 hb2 _ post
                (escapeHtml_no_lt ti) hpost t h2
          · apply zone_starts_false ('<' :: b :: tag2) hgt
              (pre ++ (("<head").data) ++ grp) (pre ++ h5 ++ grp) _ ('>' :: post)
              ?hci ?horig w hw
            case hci =>
              have hci5 : ((("<head").data)).map Char.toLower = h5.map Char.toLower := by
                rw [hciH]
                decide
              simp only [List.map_append]
              rw [hci5]
            case horig =>
              intro b2 hb2s hlen2
              refine containsCI_eq_false_iff.1 h _ ?_
              rw [show X.data = (pre ++ h5 ++ grp) ++ ('>' :: post) from hcs]
              exact suffix_append_both hb2s
        · have hout : (ensureTitle X (some ti)).data
              = (("<title>").data) ++ (((escapeHtml ti).data)
                ++ ((("</title>").data) ++ X.data)) := by
            simp [ensureTitle, ht0, htit, hhead, List.append_assoc]
          rw [hout, containsCI_eq_false_iff]
          intro t ht
          exact title_block_starts_false b tag2 hb1 hb2 _ X.data
            (escapeHtml_no_lt ti)
            (fun t2 ht2 => containsCI_eq_false_iff.1 h t2 ht2) t ht

theorem ensureTitle_no_dollar (X : String) (title : Option String)
    (hX : '$' ∉ X.data)
    (hdol : ∀ t2, title = some t2 → '$' ∉ t2.data) :
    '$' ∉ (ensureTitle X title).data := by
  rcases title with _ | ti
  · exact hX
  · by_cases ht0 : ti = ""
    · simpa [ensureTitle, ht0] using hX
    · by_cases htit : hasOpenTag (("<title").data) X.data = true
      · simpa [ensureTitle, ht0, htit] using hX
      · by_cases hhead : hasOpenTag (("<head").data) X.data = true
        · obtain ⟨pre, h5, grp, post, hcs, hciH, hgrp, hfirst, hres⟩ :=
            replaceHeadAux_decomp_lit ((escapeHtml ti).data)
              (escapeHtml_no_dollar ti (hdol ti rfl)) X.data hhead
          have hout : (ensureTitle X (some ti)).data
              = replaceHeadAux ((escapeHtml ti).data) [] X.data := by
            simp [ensureTitle, ht0, htit, hhead]
          rw [hout, hres]
          intro hx
          have hpre : '$' ∈ pre → False := fun h1 => hX (by rw [hcs]; simp [h1])
          have hgrpd : '$' ∈ grp → False := fun h1 => hX (by rw [hcs]; simp [h1])
          have hpost : '$' ∈ post → False := fun h1 => hX (by rw [hcs]; simp [h1])
          have hescd := escapeHtml_no_dollar ti (hdol ti rfl)
          simp only [List.mem_append, List.mem_cons] at hx
          rcases hx with ((((( h1 | h1) | h1) | (h1 | h1)) | h1) | h1) | h1
          · exact hpre h1
          · exact absurd h1 (by decide)
          · exact hgrpd h1
          · exact absurd h1 (by decide)
          · exact absurd h1 (by decide)
          · exact hescd h1
          · exact absurd h1 (by decide)
          · exact hpost h1
        · have hout : ensureTitle X (some ti)
              = "<title>" ++ escapeHtml ti ++ "</title>" ++ X := by
            simp [ensureTitle, ht0, htit, hhead]
          rw [hout]
          intro hx
          have hescd := escapeHtml_no_dollar ti (hdol ti rfl)
          rw [show ("<title>" ++ escapeHtml ti ++ "</title>" ++ X).data
              = ("<title>").data ++ (escapeHtml ti).data ++ ("</title>").data ++ X.data
            from by simp] at hx
          simp only [List.mem_append] at hx
          rcases hx with ((h1 | h1) | h1) | h1
          · exact absurd h1 (by decide)
          · exact hescd h1
          · exact absurd h1 (by decide)
          · exact hX h1

/-- Claim C1 (corrected): for every parse behavior, input options (hence every
resolved policy, including ones listing blocked tags in `allowedTags`) and
html, the options `wash` passes to the engine carry an exclusion predicate
holding exactly on the fixed eight-tag set — independent of every policy
field; and whenever the engine output and the title are free of the `$`
character, an engine output honouring that exclusion (no case-insensitive
`<tag` occurrence for an excluded tag) yields a final `wash` output that
contains none either. The `$`-freeness proviso is needed: a `String.replace`
substitution pattern in the html can mint a blocked tag in the output (see
the counterexample). -/
theorem claim_C1_corrected
    (ps : String → ParseSetupResult SanitizeConfigSchema)
    (E : String → SanitizeOptions → String)
    (html : String) (options : Option WashOptions) :
    (∀ tg : String, ((washPassedOptions ps options).exclusiveFilter tg = true ↔
        tg ∈ (["script", "style", "iframe", "object", "embed", "applet",
          "frame", "frameset"] : List String))) ∧
    ('$' ∉ (E html (washPassedOptions ps options)).data →
      (∀ t2, (options.bind fun o => o.title) = some t2 → '$' ∉ t2.data) →
      (∀ tg ∈ ALWAYS_BLOCKED,
          containsCI ('<' :: tg.data)
            (E html (washPassedOptions ps options)).data = false) →
      ∀ tg ∈ ALWAYS_BLOCKED,
        containsCI ('<' :: tg.data) ((wash ps E html options).html).data = false) := by
  constructor
  · intro tg
    have h1 : (washPassedOptions ps options).exclusiveFilter
        = fun tg2 => ALWAYS_BLOCKED.contains tg2 :=
      (buildSanitizeOptions_fields ((washResolve ps (washSetupText options)).1)).1
    rw [h1]
    simp [ALWAYS_BLOCKED]
  · intro hdolE hdolT hE tg htg
    have hwash : ((wash ps E html options).html)
        = (ensureImageAlt
            (ensureTitle (E html (washPassedOptions ps options))
              (options.bind fun o => o.title))
            (washResolve ps (washSetupText options)).2).1 := rfl
    rw [hwash]
    have hconds : ∀ s ∈ ALWAYS_BLOCKED,
        (∀ x ∈ s.data, ¬ x.toLower = ('>').toLower ∧ ¬ x.toLower = ' ') ∧
        (∀ b2 ∈ s.data.take 1, ¬ b2.toLower = ('t').toLower ∧
          ¬ b2.toLower = ('/').toLower) ∧
        s.data ≠ [] := by decide
    obtain ⟨hchars, hheadc, hne⟩ := hconds tg htg
    rcases htd : tg.data with _ | ⟨b, tag2⟩
    · exact absurd htd hne
    · have hb12 := hheadc b (by rw [htd]; simp)
      rw [htd] at hchars
      apply ensureImageAlt_preserves_absence (b :: tag2)
        (fun x hx => by
          rcases List.mem_cons.1 hx with rfl | hx2
          · decide
          · exact (hchars x hx2).2)
      · exact ensureTitle_no_dollar _ _ hdolE hdolT
      · apply ensureTitle_preserves_absence b tag2 _
          (fun x hx => by
            rcases List.mem_cons.1 hx with rfl | hx2
            · decide
            · exact (hchars x hx2).1)
          hb12.1 hb12.2
        · exact hdolT
        · have hE2 := hE tg htg
          rw [htd] at hE2
          exact hE2

theorem claim_C1_witness :
    ((washPassedOptions samplePsAllFail none).exclusiveFilter "script" = true ↔
      "script" ∈ (["script", "style", "iframe", "object", "embed", "applet",
        "frame", "frameset"] : List String)) ∧
    (∀ tg ∈ ALWAYS_BLOCKED,
      containsCI ('<' :: tg.data)
        ((wash samplePsAllFail sampleEngineEmpty "<p>x</p>" none).html).data = false) :=
  ⟨(claim_C1_corrected samplePsAllFail sampleEngineEmpty "<p>x</p>" none).1 "script",
    (claim_C1_corrected samplePsAllFail sampleEngineEmpty "<p>x</p>" none).2
      (by decide) (fun t2 h => by simp at h) (by decide)⟩

/-- Claim C1 counterexample: this engine output contains no blocked tag
(case-insensitively) but carries a `$` + apostrophe substitution pattern
inside an unclosed img tag; `ensureImageAlt` expands the pattern with the
text following the match and the final `wash` output contains `<script`. -/
theorem claim_C1_counterexample :
    (∀ tg ∈ ALWAYS_BLOCKED,
      containsCI ('<' :: tg.data) dollarScriptProbe.data = false) ∧
    containsCI ('<' :: ("script").data)
      ((wash samplePsAllFail (constEngine dollarScriptProbe)
          dollarScriptProbe none).html).data = true := by
  constructor
  · decide
  · decide

/-- Claim C2 counterexample: the output-level conclusion fails. This engine
output contains no attribute name starting with `on`, but carries a `$` +
apostrophe substitution pattern inside an unclosed img tag; `ensureImageAlt`
expands the pattern with the text following the match and the final `wash`
output contains ` onclick=`. -/
theorem claim_C2_counterexample :
    containsCI ((" onclick=").data) dollarTailProbe.data = false ∧
    containsCI ((" onclick=").data)
      ((wash samplePsAllFail (constEngine dollarTailProbe)
          dollarTailProbe none).html).data = true := by
  constructor
  · decide
  · decide

end HtmlWasher
